import Mathlib

/-!
Verification of the Monte Carlo trading simulator
(`simulationWorker.ts`, `monte_carlo_trading.tsx`).

All JavaScript numbers are modelled as rationals (`ℚ`); the random draws of
`Math.random()` and the reservoir replacement indices are modelled as oracle
functions supplied as explicit arguments, so every definition is a pure,
executable translation of the corresponding source function.
-/

namespace MonteCarlo

/-- `compoundingFrequency` enum of `Params` in `simulationWorker.ts`. -/

inductive Freq where
  | daily
  | monthly
  | quarterly
  | yearly
deriving DecidableEq

/-- The `Params` record of `simulationWorker.ts` (the optional
`compoundingFrequency` field is an `Option`). -/

structure Params where
  initialCapital : ℚ
  riskPercentage : ℚ
  riskRewardRatio : ℚ
  winRate : ℚ
  tradesPerMonth : ℕ
  timeMonths : ℕ
  riskCapDollars : ℚ
  compoundingFrequency : Option Freq
deriving DecidableEq

/-- `freq === 'daily' ? 0 : freq === 'monthly' ? 1 : freq === 'quarterly' ? 3 : 12`
applied to `params.compoundingFrequency ?? 'quarterly'` (`simulationWorker.ts`). -/

def recalcMonths (p : Params) : ℕ :=
  match p.compoundingFrequency.getD Freq.quarterly with
  | .daily => 0
  | .monthly => 1
  | .quarterly => 3
  | .yearly => 12

/-- `Math.min(capital * riskPercentDecimal, params.riskCapDollars)` where
`riskPercentDecimal = params.riskPercentage / 100`. -/

def riskOf (p : Params) (capital : ℚ) : ℚ :=
  min (capital * (p.riskPercentage / 100)) p.riskCapDollars

/-- `if (capital < 0) capital = 0` in `runChunk`. -/

def clampNeg (c : ℚ) : ℚ := if c < 0 then 0 else c

/-- The three mutable locals of one simulated path in `runChunk`:
`capital`, `currentRiskPerTrade`, `currentRewardPerTrade`. -/

structure SimState where
  capital : ℚ
  risk : ℚ
  reward : ℚ
deriving DecidableEq

/-- State at the head of the `sim` loop body of `runChunk`: capital is
`params.initialCapital`; risk/reward are computed from it. -/

def initState (p : Params) : SimState :=
  let r := riskOf p p.initialCapital
  ⟨p.initialCapital, r, r * p.riskRewardRatio⟩

/-- One iteration of the `trade` loop of `runChunk`: apply the win/loss to
capital, clamp at zero, and when `recalcMonths === 0` recompute risk/reward
from the new capital. -/

def tradeStep (p : Params) (isWin : Bool) (s : SimState) : SimState :=
  let c := clampNeg (if isWin then s.capital + s.reward else s.capital - s.risk)
  if recalcMonths p = 0 then
    let r := riskOf p c
    ⟨c, r, r * p.riskRewardRatio⟩
  else
    ⟨c, s.risk, s.reward⟩

/-- The `trade` loop of `runChunk`, folded over a list of win/loss outcomes. -/

def tradesFold (p : Params) (outs : List Bool) (s : SimState) : SimState :=
  outs.foldl (fun st b => tradeStep p b st) s

/-- The block after the `trade` loop:
`if (recalcMonths > 0 && month % recalcMonths === 0)` recompute risk/reward. -/

def monthEnd (p : Params) (month : ℕ) (s : SimState) : SimState :=
  if 0 < recalcMonths p ∧ month % recalcMonths p = 0 then
    let r := riskOf p s.capital
    ⟨s.capital, r, r * p.riskRewardRatio⟩
  else s

/-- The win/loss outcomes of the given month's trades, read from an outcome
oracle `o : month → trade → Bool`. -/

def monthOuts (p : Params) (o : ℕ → ℕ → Bool) (month : ℕ) : List Bool :=
  (List.range p.tradesPerMonth).map (o month)

/-- One iteration of the `month` loop of `runChunk` (trades, then the
frequency-dependent reassessment). -/

def monthStep (p : Params) (o : ℕ → ℕ → Bool) (month : ℕ) (s : SimState) : SimState :=
  monthEnd p month (tradesFold p (monthOuts p o month) s)

/-- State of one simulated path after the first `m` iterations of the `month`
loop of `runChunk`. -/

def stateAt (p : Params) (o : ℕ → ℕ → Bool) : ℕ → SimState
  | 0 => initState p
  | m + 1 => monthStep p o (m + 1) (stateAt p o m)

/-- `MonthlyPoint` of `simulationWorker.ts`. -/

structure MonthlyPoint where
  month : ℕ
  capital : ℚ
deriving DecidableEq

/-- `SimulationResult` of `simulationWorker.ts`. -/

structure SimulationResult where
  finalCapital : ℚ
  monthlyData : List MonthlyPoint
deriving DecidableEq

/-- One simulated path of `runChunk`: `monthlyData` records `(month, capital)`
for month `0` and after each month `1..timeMonths`; `finalCapital` is the
capital after the last month. -/

def runSim (p : Params) (o : ℕ → ℕ → Bool) : SimulationResult :=
  { finalCapital := (stateAt p o p.timeMonths).capital
    monthlyData :=
      (List.range (p.timeMonths + 1)).map (fun m => ⟨m, (stateAt p o m).capital⟩) }

/-- `Math.random() < winRateDecimal` where `winRateDecimal = params.winRate / 100`. -/

def isWinDraw (p : Params) (d : ℚ) : Bool := decide (d < p.winRate / 100)

/-- Outcomes induced by a uniform-draw oracle `draws : month → trade → [0,1)`. -/

def outcomesOfDraws (p : Params) (draws : ℕ → ℕ → ℚ) : ℕ → ℕ → Bool :=
  fun m t => isWinDraw p (draws m t)

/-- One simulated path of `runChunk` with outcomes decided by uniform draws,
exactly as in the source (`const isWin = Math.random() < winRateDecimal`). -/

def runSimRandom (p : Params) (draws : ℕ → ℕ → ℚ) : SimulationResult :=
  runSim p (outcomesOfDraws p draws)

/-- A uniform-draw oracle is valid when every draw lies in `[0, 1)`,
as `Math.random()` guarantees. -/

def ValidDraws (draws : ℕ → ℕ → ℚ) : Prop :=
  ∀ m t, 0 ≤ draws m t ∧ draws m t < 1

/-! ### The spec's trajectory-generator algorithm, written from its words

The following definitions transcribe section 4.1 of the specification
(steps 1-7) literally, to be compared with the embedding of `runChunk`
above. -/

/-- Spec step 3: "Determine recompute interval in months from
compoundingFrequency: daily→0 (recompute after every trade), monthly→1,
quarterly→3 (default), yearly→12." -/

def specInterval (freq : Option Freq) : ℕ :=
  match freq with
  | some .daily => 0
  | some .monthly => 1
  | some .quarterly => 3
  | some .yearly => 12
  | none => 3

/-- Spec step 4, the inner trade loop: "draw a uniform random value; if
< winRate/100, capital += reward, else capital -= risk; clamp capital to ≥ 0.
If interval = 0, recompute risk/reward immediately after this trade using
current capital", with the recompute rule of step 2. -/

def specTrades (p : Params) (interval : ℕ) :
    List ℚ → ℚ × ℚ × ℚ → ℚ × ℚ × ℚ
  | [], st => st
  | d :: ds, (capital, risk, reward) =>
    let c := max (if d < p.winRate / 100 then capital + reward else capital - risk) 0
    if interval = 0 then
      let r := min (c * p.riskPercentage / 100) p.riskCapDollars
      specTrades p interval ds (c, r, r * p.riskRewardRatio)
    else
      specTrades p interval ds (c, risk, reward)

/-- Spec steps 4-6, the month loop: trades, then "if interval > 0 and
month mod interval = 0, recompute risk/reward from current capital", then
"Record (month, capital) for this month". -/

def specMonths (p : Params) (interval : ℕ) (draws : ℕ → ℕ → ℚ) :
    ℕ → ℕ → ℚ × ℚ × ℚ → (ℚ × ℚ × ℚ) × List MonthlyPoint
  | _, 0, st => (st, [])
  | month, r + 1, st =>
    let st1 := specTrades p interval ((List.range p.tradesPerMonth).map (draws month)) st
    let st2 :=
      if 0 < interval ∧ month % interval = 0 then
        let rk := min (st1.1 * p.riskPercentage / 100) p.riskCapDollars
        (st1.1, rk, rk * p.riskRewardRatio)
      else st1
    let rest := specMonths p interval draws (month + 1) r st2
    (rest.1, ⟨month, st2.1⟩ :: rest.2)

/-- Spec steps 1-7 assembled: "capital ← initialCapital; record (month 0,
capital)"; "risk ← min(capital × riskPercentage/100, riskCapDollars);
reward ← risk × riskRewardRatio"; run months 1..timeMonths; "finalCapital =
capital". -/

def specGenerate (p : Params) (draws : ℕ → ℕ → ℚ) : SimulationResult :=
  let capital := p.initialCapital
  let risk := min (capital * p.riskPercentage / 100) p.riskCapDollars
  let reward := risk * p.riskRewardRatio
  let interval := specInterval p.compoundingFrequency
  let res := specMonths p interval draws 1 p.timeMonths (capital, risk, reward)
  { finalCapital := res.1.1, monthlyData := ⟨0, capital⟩ :: res.2 }

/-- The three locals of `runChunk` as the tuple used by the spec transcription. -/

def SimState.triple (s : SimState) : ℚ × ℚ × ℚ := (s.capital, s.risk, s.reward)

/-! ### Invariants of the trajectory generator -/

/-- State of one path at the start of month `m+1`'s trade loop after its
first `k` trades (for `k = 0` this is the state after month `m`, i.e. every
month-boundary state including the initial one). -/

def tradePrefixState (p : Params) (o : ℕ → ℕ → Bool) (m k : ℕ) : SimState :=
  tradesFold p ((monthOuts p o (m + 1)).take k) (stateAt p o m)

/-! ### Degenerate win rates: monotonicity and determinism -/

/-- Invariant maintained by every state of a run: capital and risk are
nonnegative and reward is `risk * riskRewardRatio`. -/

def GoodState (p : Params) (s : SimState) : Prop :=
  0 ≤ s.capital ∧ 0 ≤ s.risk ∧ s.reward = s.risk * p.riskRewardRatio

/-! ### Deterministic extremes (`runSimulation` in `monte_carlo_trading.tsx`)

The all-wins / all-losses loops of the `.tsx` hard-code `month % 3 === 0`
for the risk reassessment, independent of `compoundingFrequency`; the
all-losses loop additionally guards its reassessment with
`worstCapitalCalc > 0`. -/

/-- `(bestCapital, bestRisk, bestReward)` after `m` iterations of the
all-wins month loop of `runSimulation`. -/

def allWinsState (p : Params) : ℕ → ℚ × ℚ × ℚ
  | 0 =>
    let r := riskOf p p.initialCapital
    (p.initialCapital, r, r * p.riskRewardRatio)
  | m + 1 =>
    let st := allWinsState p m
    let c := (List.range p.tradesPerMonth).foldl (fun c _ => c + st.2.2) st.1
    if (m + 1) % 3 = 0 then
      let r := riskOf p c
      (c, r, r * p.riskRewardRatio)
    else
      (c, st.2.1, st.2.2)

/-- `summary.allWinsCapital` of `runSimulation`. -/

def allWinsCapital (p : Params) : ℚ := (allWinsState p p.timeMonths).1

/-- `(worstCapitalCalc, worstRisk)` after `m` iterations of the all-losses
month loop of `runSimulation` (reassessment only when
`month % 3 === 0 && worstCapitalCalc > 0`). -/

def allLossesState (p : Params) : ℕ → ℚ × ℚ
  | 0 => (p.initialCapital, riskOf p p.initialCapital)
  | m + 1 =>
    let st := allLossesState p m
    let c := (List.range p.tradesPerMonth).foldl (fun c _ => clampNeg (c - st.2)) st.1
    if (m + 1) % 3 = 0 ∧ 0 < c then (c, riskOf p c) else (c, st.2)

/-- `summary.allLossesCapital` of `runSimulation`. -/

def allLossesCapital (p : Params) : ℚ := (allLossesState p p.timeMonths).1

/-! ### Streaming aggregator (`runSimulation` in `monte_carlo_trading.tsx`)

The streaming locals `seen`, `sum`, `minVal`, `maxVal`, `reservoir` of
`runSimulation`; the `±Infinity` sentinels of `minVal`/`maxVal` are modelled
as `none`. The replacement index `Math.floor(Math.random() * seen)` is an
oracle argument indexed by the number of values seen so far. -/

structure AggState where
  seen : ℕ
  sum : ℚ
  minV : Option ℚ
  maxV : Option ℚ
  reservoir : List ℚ
deriving DecidableEq

def initAgg : AggState := ⟨0, 0, none, none, []⟩

/-- Body of the `for k` loop of `onMessage`: update `sum`, `seen`,
`minVal`, `maxVal`, then the reservoir (append below capacity, else replace
slot `j` when `j < sampleSize`). -/

def observe (sampleSize : ℕ) (j : ℕ) (st : AggState) (v : ℚ) : AggState :=
  { seen := st.seen + 1
    sum := st.sum + v
    minV := some (match st.minV with
      | none => v
      | some m => if v < m then v else m)
    maxV := some (match st.maxV with
      | none => v
      | some m => if m < v then v else m)
    reservoir :=
      if st.reservoir.length < sampleSize then st.reservoir ++ [v]
      else if j < sampleSize then st.reservoir.set j v
      else st.reservoir }

/-- Feed a list of final-capital values to the aggregator one at a time. -/

def runAggFrom (sampleSize : ℕ) (js : ℕ → ℕ) : AggState → List ℚ → AggState
  | st, [] => st
  | st, v :: vs => runAggFrom sampleSize js (observe sampleSize (js st.seen) st v) vs

/-- The summary block of `runSimulation` (names as in the `Results` type). -/

structure Summary where
  mean : ℚ
  median : ℚ
  percentile25 : ℚ
  percentile75 : ℚ
  percentile10 : ℚ
  percentile90 : ℚ
  worst : ℚ
  best : ℚ
deriving DecidableEq

/-- `reservoir.sort((a, b) => a - b)`: ascending stable sort. -/

def sortAsc (l : List ℚ) : List ℚ := l.mergeSort (fun a b => decide (a ≤ b))

/-- `const pick = (p) => reservoir[Math.floor(reservoir.length * p)] ?? 0`
(the argument of `Math.floor` is nonnegative, so `Nat.floor` is `Math.floor`). -/

def pick (sorted : List ℚ) (q : ℚ) : ℚ :=
  sorted.getD ⌊(sorted.length : ℚ) * q⌋₊ 0

/-- The summary computation of `runSimulation` after `Promise.all`: mean,
the five reservoir percentiles, and the sentinel-coerced worst/best. -/

def finalize (st : AggState) : Summary :=
  let sorted := sortAsc st.reservoir
  { mean := if 0 < st.seen then st.sum / st.seen else 0
    median := pick sorted (1/2)
    percentile25 := pick sorted (1/4)
    percentile75 := pick sorted (3/4)
    percentile10 := pick sorted (1/10)
    percentile90 := pick sorted (9/10)
    worst := st.minV.getD 0
    best := st.maxV.getD 0 }

/-- The aggregator state at finalization of a run that observed `vs`. -/

def aggFinal (sampleSize : ℕ) (js : ℕ → ℕ) (vs : List ℚ) : AggState :=
  runAggFrom sampleSize js initAgg vs

/-! ### Batch scheduler (`runSimulation` in `monte_carlo_trading.tsx`)

The shared cursor `nextStart` and `getNextBatch`, and the pool-size
computation. A `getNextBatch` call ignores which worker makes it, so calls
are modelled as a fold over an arbitrary list of caller identities. -/

/-- `Math.min(Math.max(1, hw), 8)`: hardware concurrency clamped to [1,8]. -/

def maxWorkersOf (hw : ℕ) : ℕ := min (max 1 hw) 8

/-- `Math.ceil(totalSims / batchSize)` on naturals (for `bs > 0`). -/

def totalBatchesOf (total bs : ℕ) : ℕ := (total + bs - 1) / bs

/-- `poolSize = Math.min(maxWorkers, totalBatches)`. -/

def poolSizeOf (hw total bs : ℕ) : ℕ := min (maxWorkersOf hw) (totalBatchesOf total bs)

/-- The size handed out by one `getNextBatch` call: 0 when the cursor is
exhausted, else `Math.min(batchSize, totalSims - nextStart)`. -/

def nextBatchTake (total bs cursor : ℕ) : ℕ :=
  if cursor < total then min bs (total - cursor) else 0

/-- The `(start, size)` ranges handed out by `fuel` successive
`getNextBatch` calls starting at the given cursor. -/

def claimsFrom (total bs : ℕ) : ℕ → ℕ → List (ℕ × ℕ)
  | 0, _ => []
  | fuel + 1, cur =>
    let take := nextBatchTake total bs cur
    if take = 0 then []
    else (cur, take) :: claimsFrom total bs fuel (cur + take)

/-- One `getNextBatch` call made by worker `w` against the shared state
`(cursor, claimed ranges)`; the caller's identity plays no role. -/

def claimStep {W : Type} (total bs : ℕ) (st : ℕ × List (ℕ × ℕ)) (_w : W) :
    ℕ × List (ℕ × ℕ) :=
  let take := nextBatchTake total bs st.1
  if take = 0 then st else (st.1 + take, st.2 ++ [(st.1, take)])

/-- Cursor and claimed ranges after an arbitrary interleaving of callers. -/

def claimRun {W : Type} (total bs : ℕ) (callers : List W) : ℕ × List (ℕ × ℕ) :=
  callers.foldl (claimStep total bs) (0, [])

/-! ### Worker pool coordination and error handling
(`runSimulation` in `monte_carlo_trading.tsx`)

Worker responses come from an oracle `resp : worker → request index →
response`; the interleaving of message deliveries is an explicit schedule.
`onMessage` runs atomically on the main thread, so one delivery is one step. -/

/-- A batch response as classified by `onMessage`: the expected `finals`
payload, or anything else (wrong `kind`, or missing `finals`). -/

inductive WResp where
  | malformed
  | finals (vals : List ℚ)
deriving DecidableEq

/-- Lifecycle of one pooled worker in `runSimulation`. -/

inductive WStatus where
  | noWork
  | busy (batch : ℕ)
  | doneNormal
  | doneError
deriving DecidableEq

/-- The coordinator's mutable state in `runSimulation`. -/

structure PoolState where
  cursor : ℕ
  agg : AggState
  errMsgCount : ℕ
  errorSet : Bool
  completedBatches : ℕ
  workers : List WStatus
deriving DecidableEq

/-- The spawn loop: each of the `poolSize` workers claims its first batch in
spawn order, or is terminated immediately when none remains. -/

def spawnAll (total bs poolSize : ℕ) : ℕ × List WStatus :=
  (List.range poolSize).foldl
    (fun st _ =>
      let take := nextBatchTake total bs st.1
      if take = 0 then (st.1, st.2 ++ [WStatus.noWork])
      else (st.1 + take, st.2 ++ [WStatus.busy 0]))
    (0, [])

/-- Coordinator state right after `runSimulation` spawns the pool. -/

def initPool (total bs hw : ℕ) : PoolState :=
  let sp := spawnAll total bs (poolSizeOf hw total bs)
  ⟨sp.1, initAgg, 0, false, 0, sp.2⟩

/-- One `onMessage` delivery to worker `i`: a malformed response terminates
(only) that worker, records the error message and resolves its promise; a
well-formed one streams its finals into the aggregator, bumps the progress
counter, and either hands the worker its next batch or retires it. -/

def deliver (total bs sampleSize : ℕ) (resp : ℕ → ℕ → WResp) (js : ℕ → ℕ)
    (st : PoolState) (i : ℕ) : PoolState :=
  match st.workers.get? i with
  | some (WStatus.busy k) =>
    match resp i k with
    | WResp.malformed =>
      { st with
        workers := st.workers.set i WStatus.doneError
        errMsgCount := st.errMsgCount + 1
        errorSet := true }
    | WResp.finals vals =>
      let take := nextBatchTake total bs st.cursor
      { cursor := st.cursor + take
        agg := runAggFrom sampleSize js st.agg vals
        errMsgCount := st.errMsgCount
        errorSet := st.errorSet
        completedBatches := st.completedBatches + 1
        workers := st.workers.set i
          (if take = 0 then WStatus.doneNormal else WStatus.busy (k + 1)) }
  | _ => st

/-- A pooled run: spawn, then deliver responses in schedule order. -/

def runPool (total bs sampleSize hw : ℕ) (resp : ℕ → ℕ → WResp) (js : ℕ → ℕ)
    (sched : List ℕ) : PoolState :=
  sched.foldl (deliver total bs sampleSize resp js) (initPool total bs hw)

def isBusy : WStatus → Bool
  | WStatus.busy _ => true
  | _ => false

/-- `Promise.all` of the pool has resolved: no worker still awaits a batch. -/

def allResolved (st : PoolState) : Bool := st.workers.all (fun w => !(isBusy w))

/-- The UI-visible `(results, errorMsg set?)` outcome once the run ends:
after all worker promises resolve the summary is computed and, provided the
chart job succeeds, stored via `setResults` — even when an error message was
recorded. A failed chart job leaves results null and sets the message. -/

def poolOutcome {γ : Type} (st : PoolState) (chart : Except Unit γ) :
    Option Summary × Bool :=
  if allResolved st then
    match chart with
    | Except.ok _ => (some (finalize st.agg), st.errorSet)
    | Except.error _ => (none, true)
  else (none, st.errorSet)

/-- Response oracle for the counterexample: worker 0 answers malformed,
every other worker returns one final capital of 100. -/

def respCE : ℕ → ℕ → WResp :=
  fun w _ => if w = 0 then WResp.malformed else WResp.finals [100]

/-! ### Paths job (`kind === 'paths'`) and chart assembly (`fetchChartPaths`) -/

/-- The comparator `(a, b) => a.finalCapital - b.finalCapital` of the paths
branch, as the `le` of a stable ascending sort. -/

def pathLe (a b : SimulationResult) : Bool := decide (a.finalCapital ≤ b.finalCapital)

/-- `runChunk` results of the paths job (one outcome oracle per simulation
index), sorted ascending by final capital. -/

def sortedPaths (p : Params) (o : ℕ → ℕ → ℕ → Bool) (sims : ℕ) :
    List SimulationResult :=
  ((List.range sims).map (fun s => runSim p (o s))).mergeSort pathLe

/-- The `picks`/`paths` computation of the worker's paths branch:
ranks 0, ⌊0.25n⌋, ⌊0.5n⌋, ⌊0.75n⌋, n−1 of the sorted results; an
out-of-range rank yields `none` (JS `undefined`). -/

def runPathsJob (p : Params) (o : ℕ → ℕ → ℕ → Bool) (sims : ℕ) :
    List (Option SimulationResult) :=
  let sorted := sortedPaths p o sims
  [0, ⌊(sorted.length : ℚ) * (1/4)⌋₊, ⌊(sorted.length : ℚ) * (1/2)⌋₊,
    ⌊(sorted.length : ℚ) * (3/4)⌋₊, sorted.length - 1].map (fun i => sorted.get? i)

/-- `p.monthlyData[month]?.capital ?? 0` for one selected path; reading a
property of an `undefined` path throws (the `Except.error` case). -/

def pathValueAt (pOpt : Option SimulationResult) (month : ℕ) : Except Unit ℚ :=
  match pOpt with
  | none => Except.error ()
  | some r => Except.ok (((r.monthlyData.get? month).map MonthlyPoint.capital).getD 0)

/-- `fetchChartPaths`: run the paths job with `sims = Math.min(1000,
simulations)` and emit one chart row per month 0..timeMonths whose five
values are the selected paths' capitals at that month, in the label order
Worst Sim, 25th %ile, Median, 75th %ile, Best Sim. -/

def fetchChartPaths (p : Params) (totalSims : ℕ) (o : ℕ → ℕ → ℕ → Bool) :
    Except Unit (List (ℕ × List ℚ)) :=
  let sims := min 1000 totalSims
  let paths := runPathsJob p o sims
  (List.range (p.timeMonths + 1)).mapM
    (fun m => (paths.mapM (fun q => pathValueAt q m)).map (fun vs => (m, vs)))

/-! ### Theorems -/

theorem riskOf_eq (p : Params) (c : ℚ) :
    riskOf p c = min (c * p.riskPercentage / 100) p.riskCapDollars := by
  rw [riskOf, mul_div_assoc]

theorem clampNeg_eq_max (c : ℚ) : clampNeg c = max c 0 := by
  rw [clampNeg]
  split
  · exact (max_eq_right (le_of_lt (by assumption))).symm
  · exact (max_eq_left (le_of_not_lt (by assumption))).symm

theorem specInterval_eq (p : Params) :
    specInterval p.compoundingFrequency = recalcMonths p := by
  rcases hf : p.compoundingFrequency with _ | f
  · simp [specInterval, recalcMonths, hf]
  · cases f <;> simp [specInterval, recalcMonths, hf]

theorem specTrades_eq (p : Params) (ds : List ℚ) (s : SimState) :
    specTrades p (recalcMonths p) ds s.triple
      = (tradesFold p (ds.map (isWinDraw p)) s).triple := by
  induction ds generalizing s with
  | nil => rfl
  | cons d ds ih =>
    have hc :
        max (if d < p.winRate / 100 then s.capital + s.reward else s.capital - s.risk) 0
          = clampNeg (if isWinDraw p d then s.capital + s.reward else s.capital - s.risk) := by
      rw [clampNeg_eq_max, isWinDraw]
      by_cases h : d < p.winRate / 100 <;> simp [h]
    show specTrades p (recalcMonths p) (d :: ds) (s.capital, s.risk, s.reward) = _
    simp only [specTrades, List.map_cons, tradesFold, List.foldl_cons]
    by_cases h0 : recalcMonths p = 0
    · rw [if_pos h0, hc]
      simp only [← riskOf_eq]
      have hstep : (tradeStep p (isWinDraw p d) s).triple
          = (clampNeg (if isWinDraw p d then s.capital + s.reward else s.capital - s.risk),
             riskOf p (clampNeg (if isWinDraw p d then s.capital + s.reward else s.capital - s.risk)),
             riskOf p (clampNeg (if isWinDraw p d then s.capital + s.reward else s.capital - s.risk))
               * p.riskRewardRatio) := by
        simp only [tradeStep, if_pos h0, SimState.triple]
      rw [← hstep]
      exact ih (tradeStep p (isWinDraw p d) s)
    · rw [if_neg h0, hc]
      have hstep : (tradeStep p (isWinDraw p d) s).triple
          = (clampNeg (if isWinDraw p d then s.capital + s.reward else s.capital - s.risk),
             s.risk, s.reward) := by
        simp only [tradeStep, if_neg h0, SimState.triple]
      rw [← hstep]
      exact ih (tradeStep p (isWinDraw p d) s)

theorem specMonths_eq (p : Params) (draws : ℕ → ℕ → ℚ) (r : ℕ) :
    ∀ m : ℕ,
      specMonths p (recalcMonths p) draws (m + 1) r
          (stateAt p (outcomesOfDraws p draws) m).triple
        = ((stateAt p (outcomesOfDraws p draws) (m + r)).triple,
           (List.range' (m + 1) r).map
             (fun j => ⟨j, (stateAt p (outcomesOfDraws p draws) j).capital⟩)) := by
  induction r with
  | zero => intro m; rfl
  | succ r ih =>
    intro m
    rw [specMonths]
    have hmap :
        ((List.range p.tradesPerMonth).map (draws (m + 1))).map (isWinDraw p)
          = monthOuts p (outcomesOfDraws p draws) (m + 1) := by
      rw [List.map_map, monthOuts]
      rfl
    have h1 :
        specTrades p (recalcMonths p) ((List.range p.tradesPerMonth).map (draws (m + 1)))
            (stateAt p (outcomesOfDraws p draws) m).triple
          = (tradesFold p (monthOuts p (outcomesOfDraws p draws) (m + 1))
              (stateAt p (outcomesOfDraws p draws) m)).triple := by
      rw [specTrades_eq, hmap]
    rw [h1]
    set sTr := tradesFold p (monthOuts p (outcomesOfDraws p draws) (m + 1))
      (stateAt p (outcomesOfDraws p draws) m) with hsTr
    have h2 :
        (if 0 < recalcMonths p ∧ (m + 1) % recalcMonths p = 0 then
            let rk := min (sTr.triple.1 * p.riskPercentage / 100) p.riskCapDollars
            (sTr.triple.1, rk, rk * p.riskRewardRatio)
          else sTr.triple)
          = (stateAt p (outcomesOfDraws p draws) (m + 1)).triple := by
      show _ = (monthStep p (outcomesOfDraws p draws) (m + 1)
        (stateAt p (outcomesOfDraws p draws) m)).triple
      rw [monthStep, ← hsTr, monthEnd]
      by_cases h : 0 < recalcMonths p ∧ (m + 1) % recalcMonths p = 0
      · rw [if_pos h, if_pos h, ← riskOf_eq]
        rfl
      · rw [if_neg h, if_neg h]
    simp only [h2]
    have h3 := ih (m + 1)
    rw [h3]
    have hadd : m + 1 + r = m + (r + 1) := by omega
    rw [hadd, List.range'_succ]
    simp only [List.map_cons]
    rfl

/-- C1: for well-formed params (initialCapital ≥ 0, riskRewardRatio > 0,
winRate ∈ [0,100], riskCapDollars ≥ 0; the integer fields are naturals) and
every draw sequence, the path produced by `runChunk` coincides, point for
point and in its final capital, with the algorithm of spec section 4.1:
the initial risk/reward rule, the interval mapping daily→0 / monthly→1 /
quarterly→3 (default) / yearly→12, the win test `draw < winRate/100`, the
clamp at zero, the interval-0 per-trade recompute, the month-end recompute
when `month mod interval = 0`, the recorded points for months 0..timeMonths,
and the final capital after the last month. -/

theorem trajectory_follows_spec (p : Params)
    (h1 : 0 ≤ p.initialCapital) (h2 : 0 < p.riskRewardRatio)
    (h3 : 0 ≤ p.winRate) (h4 : p.winRate ≤ 100) (h5 : 0 ≤ p.riskCapDollars)
    (draws : ℕ → ℕ → ℚ) :
    runSimRandom p draws = specGenerate p draws := by
  rw [runSimRandom, runSim, specGenerate]
  rw [specInterval_eq]
  have hinit : (p.initialCapital,
      min (p.initialCapital * p.riskPercentage / 100) p.riskCapDollars,
      min (p.initialCapital * p.riskPercentage / 100) p.riskCapDollars * p.riskRewardRatio)
      = (stateAt p (outcomesOfDraws p draws) 0).triple := by
    rw [← riskOf_eq]
    rfl
  rw [hinit]
  have h := specMonths_eq p draws p.timeMonths 0
  simp only [Nat.zero_add] at h
  rw [h]
  have hrange :
      (List.range (p.timeMonths + 1)).map
          (fun m => (⟨m, (stateAt p (outcomesOfDraws p draws) m).capital⟩ : MonthlyPoint))
        = (⟨0, p.initialCapital⟩ : MonthlyPoint) ::
          (List.range' 1 p.timeMonths).map
            (fun j => ⟨j, (stateAt p (outcomesOfDraws p draws) j).capital⟩) := by
    rw [List.range_eq_range', List.range'_succ, List.map_cons]
    rfl
  rw [hrange]
  rfl

/-- Witness for C1 at concrete params and a concrete draw sequence. -/

theorem trajectory_follows_spec_witness :
    (0 : ℚ) ≤ 50000 ∧ (0 : ℚ) < 3 ∧ (0 : ℚ) ≤ 30 ∧ (30 : ℚ) ≤ 100 ∧ (0 : ℚ) ≤ 3000 ∧
      runSimRandom ⟨50000, 1, 3, 30, 7, 36, 3000, none⟩ (fun m t => (m + t : ℚ) / 100)
        = specGenerate ⟨50000, 1, 3, 30, 7, 36, 3000, none⟩ (fun m t => (m + t : ℚ) / 100) :=
  ⟨by norm_num, by norm_num, by norm_num, by norm_num, by norm_num,
    trajectory_follows_spec ⟨50000, 1, 3, 30, 7, 36, 3000, none⟩
      (by norm_num) (by norm_num) (by norm_num) (by norm_num) (by norm_num)
      (fun m t => (m + t : ℚ) / 100)⟩

theorem clampNeg_nonneg (c : ℚ) : 0 ≤ clampNeg c := by
  rw [clampNeg]; split
  · exact le_refl 0
  · exact le_of_not_lt (by assumption)

theorem clampNeg_of_nonneg {c : ℚ} (h : 0 ≤ c) : clampNeg c = c := by
  rw [clampNeg, if_neg (not_lt.mpr h)]

theorem riskOf_le_cap (p : Params) (c : ℚ) : riskOf p c ≤ p.riskCapDollars :=
  min_le_right _ _

theorem riskOf_nonneg (p : Params) (hpct : 0 ≤ p.riskPercentage)
    (hcap : 0 ≤ p.riskCapDollars) {c : ℚ} (hc : 0 ≤ c) : 0 ≤ riskOf p c :=
  le_min (mul_nonneg hc (by positivity)) hcap

theorem tradeStep_capital_nonneg (p : Params) (b : Bool) (s : SimState) :
    0 ≤ (tradeStep p b s).capital := by
  rw [tradeStep]
  split <;> exact clampNeg_nonneg _

theorem tradeStep_risk_le (p : Params) (b : Bool) (s : SimState)
    (h : s.risk ≤ p.riskCapDollars) : (tradeStep p b s).risk ≤ p.riskCapDollars := by
  rw [tradeStep]
  split
  · exact riskOf_le_cap _ _
  · exact h

theorem tradesFold_capital_nonneg (p : Params) (outs : List Bool) (s : SimState)
    (h : 0 ≤ s.capital) : 0 ≤ (tradesFold p outs s).capital := by
  induction outs generalizing s with
  | nil => exact h
  | cons b bs ih =>
    show 0 ≤ (tradesFold p bs (tradeStep p b s)).capital
    exact ih _ (tradeStep_capital_nonneg p b s)

theorem tradesFold_risk_le (p : Params) (outs : List Bool) (s : SimState)
    (h : s.risk ≤ p.riskCapDollars) :
    (tradesFold p outs s).risk ≤ p.riskCapDollars := by
  induction outs generalizing s with
  | nil => exact h
  | cons b bs ih =>
    show (tradesFold p bs (tradeStep p b s)).risk ≤ p.riskCapDollars
    exact ih _ (tradeStep_risk_le p b s h)

theorem monthEnd_capital (p : Params) (m : ℕ) (s : SimState) :
    (monthEnd p m s).capital = s.capital := by
  rw [monthEnd]; split <;> rfl

theorem monthEnd_risk_le (p : Params) (m : ℕ) (s : SimState)
    (h : s.risk ≤ p.riskCapDollars) : (monthEnd p m s).risk ≤ p.riskCapDollars := by
  rw [monthEnd]
  split
  · exact riskOf_le_cap _ _
  · exact h

theorem stateAt_risk_le (p : Params) (o : ℕ → ℕ → Bool) :
    ∀ m, (stateAt p o m).risk ≤ p.riskCapDollars := by
  intro m
  induction m with
  | zero => exact riskOf_le_cap _ _
  | succ m ih =>
    exact monthEnd_risk_le _ _ _ (tradesFold_risk_le _ _ _ ih)

theorem stateAt_capital_nonneg (p : Params) (o : ℕ → ℕ → Bool)
    (hinit : 0 ≤ p.initialCapital) : ∀ m, 0 ≤ (stateAt p o m).capital := by
  intro m
  induction m with
  | zero => exact hinit
  | succ m ih =>
    show 0 ≤ (monthStep p o (m + 1) (stateAt p o m)).capital
    rw [monthStep, monthEnd_capital]
    exact tradesFold_capital_nonneg _ _ _ ih

theorem tradePrefixState_risk_le (p : Params) (o : ℕ → ℕ → Bool) (m k : ℕ) :
    (tradePrefixState p o m k).risk ≤ p.riskCapDollars :=
  tradesFold_risk_le _ _ _ (stateAt_risk_le p o m)

theorem tradePrefixState_capital_nonneg (p : Params) (o : ℕ → ℕ → Bool)
    (hinit : 0 ≤ p.initialCapital) (m k : ℕ) :
    0 ≤ (tradePrefixState p o m k).capital :=
  tradesFold_capital_nonneg _ _ _ (stateAt_capital_nonneg p o hinit m)

/-- C2: for params with initialCapital ≥ 0 and riskCapDollars ≥ 0 and any
draw sequence, every recorded (month, capital) point of the generated path
has capital ≥ 0, and at every state of the run — every month boundary and
every prefix of every month's trade loop, hence at every point where
risk-per-trade is computed or recomputed — the risk-per-trade is at most
riskCapDollars. -/

theorem capital_nonneg_risk_capped (p : Params)
    (hinit : 0 ≤ p.initialCapital) (hcap : 0 ≤ p.riskCapDollars)
    (draws : ℕ → ℕ → ℚ) :
    (∀ pt ∈ (runSimRandom p draws).monthlyData, 0 ≤ pt.capital) ∧
    (∀ m k, (tradePrefixState p (outcomesOfDraws p draws) m k).risk
        ≤ p.riskCapDollars) := by
  constructor
  · intro pt hpt
    rw [runSimRandom, runSim] at hpt
    simp only [List.mem_map, List.mem_range] at hpt
    obtain ⟨m, _, rfl⟩ := hpt
    exact stateAt_capital_nonneg p _ hinit m
  · intro m k
    exact tradePrefixState_risk_le p _ m k

/-- Witness for C2 at concrete params and draws. -/

theorem capital_nonneg_risk_capped_witness :
    (0 : ℚ) ≤ 50000 ∧ (0 : ℚ) ≤ 3000 ∧
      ((∀ pt ∈ (runSimRandom ⟨50000, 1, 3, 30, 7, 36, 3000, none⟩
          (fun m t => (m + t : ℚ) / 100)).monthlyData, 0 ≤ pt.capital) ∧
       (∀ m k, (tradePrefixState ⟨50000, 1, 3, 30, 7, 36, 3000, none⟩
          (outcomesOfDraws ⟨50000, 1, 3, 30, 7, 36, 3000, none⟩
            (fun m t => (m + t : ℚ) / 100)) m k).risk ≤ (3000 : ℚ))) :=
  ⟨by norm_num, by norm_num,
    capital_nonneg_risk_capped ⟨50000, 1, 3, 30, 7, 36, 3000, none⟩
      (by norm_num) (by norm_num) (fun m t => (m + t : ℚ) / 100)⟩

theorem good_initState (p : Params) (hinit : 0 ≤ p.initialCapital)
    (hpct : 0 ≤ p.riskPercentage) (hcap : 0 ≤ p.riskCapDollars) :
    GoodState p (initState p) :=
  ⟨hinit, riskOf_nonneg p hpct hcap hinit, rfl⟩

theorem good_tradeStep (p : Params) (hpct : 0 ≤ p.riskPercentage)
    (hcap : 0 ≤ p.riskCapDollars) (b : Bool) (s : SimState) (h : GoodState p s) :
    GoodState p (tradeStep p b s) := by
  obtain ⟨_, h2, h3⟩ := h
  simp only [tradeStep]
  split
  · exact ⟨clampNeg_nonneg _, riskOf_nonneg p hpct hcap (clampNeg_nonneg _), rfl⟩
  · exact ⟨clampNeg_nonneg _, h2, h3⟩

theorem good_tradesFold (p : Params) (hpct : 0 ≤ p.riskPercentage)
    (hcap : 0 ≤ p.riskCapDollars) (outs : List Bool) (s : SimState)
    (h : GoodState p s) : GoodState p (tradesFold p outs s) := by
  induction outs generalizing s with
  | nil => exact h
  | cons b bs ih =>
    show GoodState p (tradesFold p bs (tradeStep p b s))
    exact ih _ (good_tradeStep p hpct hcap b s h)

theorem good_monthEnd (p : Params) (hpct : 0 ≤ p.riskPercentage)
    (hcap : 0 ≤ p.riskCapDollars) (m : ℕ) (s : SimState) (h : GoodState p s) :
    GoodState p (monthEnd p m s) := by
  simp only [monthEnd]
  split
  · exact ⟨h.1, riskOf_nonneg p hpct hcap h.1, rfl⟩
  · exact h

theorem good_stateAt (p : Params) (hinit : 0 ≤ p.initialCapital)
    (hpct : 0 ≤ p.riskPercentage) (hcap : 0 ≤ p.riskCapDollars)
    (o : ℕ → ℕ → Bool) : ∀ m, GoodState p (stateAt p o m) := by
  intro m
  induction m with
  | zero => exact good_initState p hinit hpct hcap
  | succ m ih =>
    exact good_monthEnd p hpct hcap _ _ (good_tradesFold p hpct hcap _ _ ih)

theorem good_tradePrefixState (p : Params) (hinit : 0 ≤ p.initialCapital)
    (hpct : 0 ≤ p.riskPercentage) (hcap : 0 ≤ p.riskCapDollars)
    (o : ℕ → ℕ → Bool) (m k : ℕ) : GoodState p (tradePrefixState p o m k) :=
  good_tradesFold p hpct hcap _ _ (good_stateAt p hinit hpct hcap o m)

theorem tradeStep_capital_eq (p : Params) (b : Bool) (s : SimState) :
    (tradeStep p b s).capital
      = clampNeg (if b then s.capital + s.reward else s.capital - s.risk) := by
  simp only [tradeStep]
  split <;> rfl

theorem tradeStep_true_capital_ge (p : Params) (hratio : 0 ≤ p.riskRewardRatio)
    (s : SimState) (h : GoodState p s) :
    s.capital ≤ (tradeStep p true s).capital := by
  obtain ⟨h1, h2, h3⟩ := h
  have hrw : 0 ≤ s.reward := by rw [h3]; exact mul_nonneg h2 hratio
  rw [tradeStep_capital_eq, if_pos rfl, clampNeg_of_nonneg (by linarith)]
  linarith

theorem tradeStep_false_capital_le (p : Params) (s : SimState) (h : GoodState p s) :
    (tradeStep p false s).capital ≤ s.capital := by
  obtain ⟨h1, h2, _⟩ := h
  rw [tradeStep_capital_eq, if_neg (by simp), clampNeg_eq_max]
  exact max_le (by linarith) h1

theorem tradePrefixState_succ (p : Params) (o : ℕ → ℕ → Bool) (m k : ℕ) :
    tradePrefixState p o m (k + 1)
      = ((monthOuts p o (m + 1)).get? k).elim (tradePrefixState p o m k)
          (fun b => tradeStep p b (tradePrefixState p o m k)) := by
  rw [tradePrefixState, tradePrefixState, List.take_succ, tradesFold,
    List.foldl_append]
  cases h : (monthOuts p o (m + 1)).get? k with
  | none =>
    rw [List.get?_eq_getElem?] at h
    simp [h, tradesFold]
  | some b =>
    rw [List.get?_eq_getElem?] at h
    simp [h, tradesFold]

theorem outcomes_all_true (p : Params) (hw : p.winRate = 100)
    (draws : ℕ → ℕ → ℚ) (hv : ValidDraws draws) :
    outcomesOfDraws p draws = fun _ _ => true := by
  funext m t
  simp only [outcomesOfDraws, isWinDraw, hw, decide_eq_true_iff]
  have := (hv m t).2
  norm_num
  linarith

theorem outcomes_all_false (p : Params) (hw : p.winRate = 0)
    (draws : ℕ → ℕ → ℚ) (hv : ValidDraws draws) :
    outcomesOfDraws p draws = fun _ _ => false := by
  funext m t
  simp only [outcomesOfDraws, isWinDraw, hw, decide_eq_false_iff_not]
  have := (hv m t).1
  norm_num
  linarith

/-- C8: with winRate = 100 and well-formed params, capital is non-decreasing
at every trade of the generated path and the whole generated trajectory is
the same for any two valid draw sequences; with winRate = 0, capital is
non-increasing at every trade, stays clamped at ≥ 0, and the trajectory is
likewise draw-independent. -/

theorem extreme_winrates (p : Params)
    (hinit : 0 ≤ p.initialCapital) (hpct : 0 ≤ p.riskPercentage)
    (hratio : 0 ≤ p.riskRewardRatio) (hcap : 0 ≤ p.riskCapDollars) :
    (p.winRate = 100 →
      ∀ draws draws2, ValidDraws draws → ValidDraws draws2 →
        (∀ m k, (tradePrefixState p (outcomesOfDraws p draws) m k).capital
            ≤ (tradePrefixState p (outcomesOfDraws p draws) m (k + 1)).capital) ∧
        runSimRandom p draws = runSimRandom p draws2) ∧
    (p.winRate = 0 →
      ∀ draws draws2, ValidDraws draws → ValidDraws draws2 →
        (∀ m k, (tradePrefixState p (outcomesOfDraws p draws) m (k + 1)).capital
            ≤ (tradePrefixState p (outcomesOfDraws p draws) m k).capital) ∧
        (∀ m k, 0 ≤ (tradePrefixState p (outcomesOfDraws p draws) m k).capital) ∧
        runSimRandom p draws = runSimRandom p draws2) := by
  constructor
  · intro hw draws draws2 hv hv2
    have ho := outcomes_all_true p hw draws hv
    constructor
    · intro m k
      rw [tradePrefixState_succ]
      cases hg : (monthOuts p (outcomesOfDraws p draws) (m + 1)).get? k with
      | none => exact le_refl _
      | some b =>
        have hb : b = true := by
          have hmem := List.get?_mem hg
          rw [monthOuts, ho] at hmem
          simp only [List.mem_map] at hmem
          obtain ⟨t, _, rfl⟩ := hmem
          rfl
        rw [hb]
        exact tradeStep_true_capital_ge p hratio _
          (good_tradePrefixState p hinit hpct hcap _ m k)
    · rw [runSimRandom, runSimRandom, ho, outcomes_all_true p hw draws2 hv2]
  · intro hw draws draws2 hv hv2
    have ho := outcomes_all_false p hw draws hv
    refine ⟨?_, ?_, ?_⟩
    · intro m k
      rw [tradePrefixState_succ]
      cases hg : (monthOuts p (outcomesOfDraws p draws) (m + 1)).get? k with
      | none => exact le_refl _
      | some b =>
        have hb : b = false := by
          have hmem := List.get?_mem hg
          rw [monthOuts, ho] at hmem
          simp only [List.mem_map] at hmem
          obtain ⟨t, _, rfl⟩ := hmem
          rfl
        rw [hb]
        exact tradeStep_false_capital_le p _
          (good_tradePrefixState p hinit hpct hcap _ m k)
    · intro m k
      exact tradePrefixState_capital_nonneg p _ hinit m k
    · rw [runSimRandom, runSimRandom, ho, outcomes_all_false p hw draws2 hv2]

/-- Witness for C8 at concrete params and two concrete draw sequences. -/

theorem extreme_winrates_witness :
    (0 : ℚ) ≤ 50000 ∧ (0 : ℚ) ≤ 1 ∧ (0 : ℚ) ≤ 3 ∧ (0 : ℚ) ≤ 3000 ∧
      (⟨50000, 1, 3, 100, 7, 36, 3000, none⟩ : Params).winRate = 100 ∧
      ValidDraws (fun _ _ => (1 : ℚ) / 2) ∧ ValidDraws (fun _ _ => (1 : ℚ) / 4) ∧
      runSimRandom ⟨50000, 1, 3, 100, 7, 36, 3000, none⟩ (fun _ _ => (1 : ℚ) / 2)
        = runSimRandom ⟨50000, 1, 3, 100, 7, 36, 3000, none⟩ (fun _ _ => (1 : ℚ) / 4) :=
  ⟨by norm_num, by norm_num, by norm_num, by norm_num, rfl,
    fun _ _ => by norm_num, fun _ _ => by norm_num,
    ((extreme_winrates ⟨50000, 1, 3, 100, 7, 36, 3000, none⟩
        (by norm_num) (by norm_num) (by norm_num) (by norm_num)).1 rfl
      (fun _ _ => (1 : ℚ) / 2) (fun _ _ => (1 : ℚ) / 4)
      (fun _ _ => by norm_num) (fun _ _ => by norm_num)).2⟩

/-- Counterexample to C7: with compoundingFrequency = daily the trajectory
generator recomputes risk after every trade, but the all-wins extreme still
reassesses only quarterly, so the two disagree (120 vs 121 after one month
of two forced wins at 10% risk of 100). -/

theorem extremes_ignore_frequency :
    allWinsCapital ⟨100, 10, 1, 100, 2, 1, 1000, some Freq.daily⟩
      ≠ (runSim ⟨100, 10, 1, 100, 2, 1, 1000, some Freq.daily⟩
          (fun _ _ => true)).finalCapital := by
  norm_num [allWinsCapital, allWinsState, runSim, stateAt, monthStep, monthEnd,
    monthOuts, tradesFold, tradeStep, clampNeg, riskOf, initState, recalcMonths,
    List.range_succ]

theorem monthOuts_const (p : Params) (b : Bool) (month : ℕ) :
    monthOuts p (fun _ _ => b) month = List.replicate p.tradesPerMonth b := by
  rw [monthOuts, List.map_const', List.length_range]

theorem range_foldl_succ {α : Type} (g : α → α) (n : ℕ) (c : α) :
    (List.range (n + 1)).foldl (fun c _ => g c) c
      = (List.range n).foldl (fun c _ => g c) (g c) := by
  rw [List.range_succ_eq_map, List.foldl_cons, List.foldl_map]

theorem tradesFold_all_win (p : Params) (hrec0 : recalcMonths p ≠ 0) :
    ∀ (n : ℕ) (s : SimState), 0 ≤ s.capital → 0 ≤ s.reward →
      tradesFold p (List.replicate n true) s
        = ⟨(List.range n).foldl (fun c _ => c + s.reward) s.capital, s.risk, s.reward⟩ := by
  intro n
  induction n with
  | zero => intro s _ _; rfl
  | succ n ih =>
    intro s hc hw
    rw [List.replicate_succ]
    show tradesFold p (List.replicate n true) (tradeStep p true s) = _
    have hstep : tradeStep p true s = ⟨s.capital + s.reward, s.risk, s.reward⟩ := by
      simp only [tradeStep, if_neg hrec0, if_true]
      rw [clampNeg_of_nonneg (by linarith)]
    rw [hstep, ih ⟨s.capital + s.reward, s.risk, s.reward⟩ (by dsimp; linarith) hw,
      range_foldl_succ]

theorem tradesFold_all_loss (p : Params) (hrec0 : recalcMonths p ≠ 0) :
    ∀ (n : ℕ) (s : SimState),
      tradesFold p (List.replicate n false) s
        = ⟨(List.range n).foldl (fun c _ => clampNeg (c - s.risk)) s.capital,
           s.risk, s.reward⟩ := by
  intro n
  induction n with
  | zero => intro s; rfl
  | succ n ih =>
    intro s
    rw [List.replicate_succ]
    show tradesFold p (List.replicate n false) (tradeStep p false s) = _
    have hstep : tradeStep p false s = ⟨clampNeg (s.capital - s.risk), s.risk, s.reward⟩ := by
      simp only [tradeStep, if_neg hrec0]
      rfl
    rw [hstep, ih ⟨clampNeg (s.capital - s.risk), s.risk, s.reward⟩, range_foldl_succ]

theorem loss_fold_zero {r : ℚ} (hr : 0 ≤ r) :
    ∀ n : ℕ, (List.range n).foldl (fun c _ => clampNeg (c - r)) 0 = 0 := by
  intro n
  induction n with
  | zero => rfl
  | succ n ih =>
    rw [range_foldl_succ]
    have h0 : clampNeg (0 - r) = 0 := by
      rw [clampNeg_eq_max]
      rw [max_eq_right (by linarith)]
    rw [h0, ih]

theorem wins_state_eq (p : Params) (hrec : recalcMonths p = 3)
    (hinit : 0 ≤ p.initialCapital) (hpct : 0 ≤ p.riskPercentage)
    (hratio : 0 ≤ p.riskRewardRatio) (hcap : 0 ≤ p.riskCapDollars) :
    ∀ m, stateAt p (fun _ _ => true) m
      = ⟨(allWinsState p m).1, (allWinsState p m).2.1, (allWinsState p m).2.2⟩ := by
  intro m
  induction m with
  | zero => rfl
  | succ m ih =>
    have hgood := good_stateAt p hinit hpct hcap (fun _ _ => true) m
    obtain ⟨hc, hr, hw⟩ := hgood
    have hw0 : 0 ≤ (stateAt p (fun _ _ => true) m).reward := by
      rw [hw]; exact mul_nonneg hr hratio
    show monthStep p (fun _ _ => true) (m + 1) (stateAt p (fun _ _ => true) m) = _
    rw [monthStep, monthOuts_const,
      tradesFold_all_win p (by rw [hrec]; norm_num) _ _ hc hw0, monthEnd]
    rw [ih]
    simp only [allWinsState, hrec]
    by_cases h3 : (m + 1) % 3 = 0
    · rw [if_pos ⟨by norm_num, h3⟩, if_pos h3]
    · rw [if_neg (by simp [h3]), if_neg h3]

theorem losses_state_eq (p : Params) (hrec : recalcMonths p = 3)
    (hinit : 0 ≤ p.initialCapital) (hpct : 0 ≤ p.riskPercentage)
    (hratio : 0 ≤ p.riskRewardRatio) (hcap : 0 ≤ p.riskCapDollars) :
    ∀ m, (stateAt p (fun _ _ => false) m).capital = (allLossesState p m).1
      ∧ ((stateAt p (fun _ _ => false) m).risk = (allLossesState p m).2
          ∨ (allLossesState p m).1 = 0)
      ∧ 0 ≤ (allLossesState p m).2 := by
  intro m
  induction m with
  | zero =>
    exact ⟨rfl, Or.inl rfl, riskOf_nonneg p hpct hcap hinit⟩
  | succ m ih =>
    obtain ⟨ihc, ihd, ihr⟩ := ih
    have hgood := good_stateAt p hinit hpct hcap (fun _ _ => false) m
    obtain ⟨hc, hr, _⟩ := hgood
    set s := stateAt p (fun _ _ => false) m with hs
    set al := allLossesState p m with hal
    -- capital after the month's trades, on both sides
    have hfold :
        (tradesFold p (List.replicate p.tradesPerMonth false) s).capital
          = (List.range p.tradesPerMonth).foldl (fun c _ => clampNeg (c - al.2)) al.1 := by
      rw [tradesFold_all_loss p (by rw [hrec]; norm_num)]
      dsimp only
      rcases ihd with hde | h0
      · rw [hde, ihc]
      · have hs0 : s.capital = 0 := by rw [ihc, h0]
        rw [hs0, h0, loss_fold_zero hr, loss_fold_zero ihr]
    have hfold_nonneg :
        0 ≤ (tradesFold p (List.replicate p.tradesPerMonth false) s).capital :=
      tradesFold_capital_nonneg p _ _ hc
    have hfrisk :
        (tradesFold p (List.replicate p.tradesPerMonth false) s).risk = s.risk := by
      rw [tradesFold_all_loss p (by rw [hrec]; norm_num)]
    have hstep :
        stateAt p (fun _ _ => false) (m + 1)
          = monthEnd p (m + 1) (tradesFold p (List.replicate p.tradesPerMonth false) s) := by
      show monthStep p (fun _ _ => false) (m + 1) s = _
      rw [monthStep, monthOuts_const]
    set c := (List.range p.tradesPerMonth).foldl (fun c _ => clampNeg (c - al.2)) al.1
      with hcdef
    have hal1 : allLossesState p (m + 1)
        = if (m + 1) % 3 = 0 ∧ 0 < c then (c, riskOf p c) else (c, al.2) := by
      simp only [allLossesState, ← hal, ← hcdef]
    rw [hstep, monthEnd, hrec]
    by_cases h3 : (m + 1) % 3 = 0
    · by_cases hpos : 0 < c
      · rw [if_pos ⟨by norm_num, h3⟩, hal1, if_pos ⟨h3, hpos⟩]
        refine ⟨hfold, Or.inl ?_, riskOf_nonneg p hpct hcap (le_of_lt hpos)⟩
        dsimp
        rw [hfold]
      · have hc0 : c = 0 := by
          have := hfold_nonneg
          rw [hfold] at this
          exact le_antisymm (not_lt.mp hpos) this
        rw [if_pos ⟨by norm_num, h3⟩, hal1, if_neg (by rw [hc0]; simp)]
        exact ⟨by dsimp; rw [hfold], Or.inr hc0, ihr⟩
    · rw [if_neg (by simp [h3]), hal1, if_neg (by simp [h3])]
      refine ⟨hfold, ?_, ihr⟩
      rcases ihd with hde | h0
      · exact Or.inl (by dsimp; rw [hfrisk, hde])
      · refine Or.inr ?_
        show c = 0
        rw [hcdef, h0, loss_fold_zero ihr]

/-- Counterexample-forced amendment of C7 (proved below as
`extremes_match_generator_quarterly`): the deterministic extremes agree with
the forced-win / forced-loss trajectory generator only when
compoundingFrequency is absent or quarterly, because the extremes hard-code
the quarterly reassessment. -/

theorem extremes_match_generator_quarterly (p : Params)
    (hfreq : p.compoundingFrequency = none
        ∨ p.compoundingFrequency = some Freq.quarterly)
    (hinit : 0 ≤ p.initialCapital) (hpct : 0 ≤ p.riskPercentage)
    (hratio : 0 ≤ p.riskRewardRatio) (hcap : 0 ≤ p.riskCapDollars) :
    allWinsCapital p = (runSim p (fun _ _ => true)).finalCapital ∧
    allLossesCapital p = (runSim p (fun _ _ => false)).finalCapital := by
  have hrec : recalcMonths p = 3 := by
    rcases hfreq with h | h <;> simp [recalcMonths, h]
  constructor
  · rw [allWinsCapital, runSim]
    rw [wins_state_eq p hrec hinit hpct hratio hcap p.timeMonths]
  · rw [allLossesCapital, runSim]
    exact ((losses_state_eq p hrec hinit hpct hratio hcap p.timeMonths).1).symm

/-- Witness for the amended C7 at concrete params. -/

theorem extremes_match_generator_quarterly_witness :
    ((⟨50000, 1, 3, 30, 7, 36, 3000, none⟩ : Params).compoundingFrequency = none
        ∨ (⟨50000, 1, 3, 30, 7, 36, 3000, none⟩ : Params).compoundingFrequency
            = some Freq.quarterly) ∧
    ((0:ℚ) ≤ 50000 ∧ (0:ℚ) ≤ 1 ∧ (0:ℚ) ≤ 3 ∧ (0:ℚ) ≤ 3000) ∧
    (allWinsCapital ⟨50000, 1, 3, 30, 7, 36, 3000, none⟩
        = (runSim ⟨50000, 1, 3, 30, 7, 36, 3000, none⟩ (fun _ _ => true)).finalCapital ∧
     allLossesCapital ⟨50000, 1, 3, 30, 7, 36, 3000, none⟩
        = (runSim ⟨50000, 1, 3, 30, 7, 36, 3000, none⟩ (fun _ _ => false)).finalCapital) :=
  ⟨Or.inl rfl, ⟨by norm_num, by norm_num, by norm_num, by norm_num⟩,
    extremes_match_generator_quarterly ⟨50000, 1, 3, 30, 7, 36, 3000, none⟩
      (Or.inl rfl) (by norm_num) (by norm_num) (by norm_num) (by norm_num)⟩

theorem sortAsc_perm (l : List ℚ) : (sortAsc l).Perm l :=
  List.mergeSort_perm l _

theorem sortAsc_sorted (l : List ℚ) : List.Sorted (· ≤ ·) (sortAsc l) := by
  have h := @List.sorted_mergeSort ℚ (fun a b : ℚ => decide (a ≤ b))
    (fun a b c hab hbc => by
      simp only [decide_eq_true_iff] at *
      exact le_trans hab hbc)
    (fun a b => by simpa using le_total a b) l
  exact h.imp (fun hab => of_decide_eq_true hab)

theorem runAggFrom_seen (sampleSize : ℕ) (js : ℕ → ℕ) (vs : List ℚ) :
    ∀ st, (runAggFrom sampleSize js st vs).seen = st.seen + vs.length := by
  induction vs with
  | nil => intro st; rfl
  | cons v vs ih =>
    intro st
    show (runAggFrom sampleSize js (observe sampleSize (js st.seen) st v) vs).seen = _
    rw [ih]
    simp [observe]
    omega

theorem runAggFrom_sum (sampleSize : ℕ) (js : ℕ → ℕ) (vs : List ℚ) :
    ∀ st, (runAggFrom sampleSize js st vs).sum = st.sum + vs.sum := by
  induction vs with
  | nil => intro st; simp [runAggFrom]
  | cons v vs ih =>
    intro st
    show (runAggFrom sampleSize js (observe sampleSize (js st.seen) st v) vs).sum = _
    rw [ih]
    simp [observe]
    ring

theorem if_lt_eq_min (v m : ℚ) : (if v < m then v else m) = min m v := by
  by_cases h : v < m
  · rw [if_pos h, min_eq_right (le_of_lt h)]
  · rw [if_neg h, min_eq_left (le_of_not_lt h)]

theorem if_lt_eq_max (v m : ℚ) : (if m < v then v else m) = max m v := by
  by_cases h : m < v
  · rw [if_pos h, max_eq_right (le_of_lt h)]
  · rw [if_neg h, max_eq_left (le_of_not_lt h)]

theorem runAggFrom_minV (sampleSize : ℕ) (js : ℕ → ℕ) (vs : List ℚ) :
    ∀ st m, st.minV = some m →
      (runAggFrom sampleSize js st vs).minV = some (vs.foldl min m) := by
  induction vs with
  | nil => intro st m hm; exact hm
  | cons v vs ih =>
    intro st m hm
    show (runAggFrom sampleSize js (observe sampleSize (js st.seen) st v) vs).minV = _
    rw [List.foldl_cons, ih _ (min m v) (by simp [observe, hm, if_lt_eq_min])]

theorem runAggFrom_maxV (sampleSize : ℕ) (js : ℕ → ℕ) (vs : List ℚ) :
    ∀ st m, st.maxV = some m →
      (runAggFrom sampleSize js st vs).maxV = some (vs.foldl max m) := by
  induction vs with
  | nil => intro st m hm; exact hm
  | cons v vs ih =>
    intro st m hm
    show (runAggFrom sampleSize js (observe sampleSize (js st.seen) st v) vs).maxV = _
    rw [List.foldl_cons, ih _ (max m v) (by simp [observe, hm, if_lt_eq_max])]

theorem foldl_min_le_init (l : List ℚ) : ∀ a : ℚ, l.foldl min a ≤ a := by
  induction l with
  | nil => intro a; exact le_refl a
  | cons v l ih =>
    intro a
    exact le_trans (ih (min a v)) (min_le_left a v)

theorem foldl_min_le_mem (l : List ℚ) : ∀ (a x : ℚ), x ∈ l → l.foldl min a ≤ x := by
  induction l with
  | nil => intro a x hx; exact absurd hx (List.not_mem_nil x)
  | cons v l ih =>
    intro a x hx
    rcases List.mem_cons.mp hx with rfl | hx
    · exact le_trans (foldl_min_le_init l (min a x)) (min_le_right a x)
    · exact ih (min a v) x hx

theorem foldl_min_mem_or (l : List ℚ) : ∀ a : ℚ, l.foldl min a = a ∨ l.foldl min a ∈ l := by
  induction l with
  | nil => intro a; exact Or.inl rfl
  | cons v l ih =>
    intro a
    rcases ih (min a v) with h | h
    · rw [List.foldl_cons, h]
      rcases min_choice a v with h' | h'
      · exact Or.inl h'
      · exact Or.inr (by rw [h']; exact List.mem_cons_self v l)
    · exact Or.inr (List.mem_cons_of_mem v h)

theorem foldl_max_ge_init (l : List ℚ) : ∀ a : ℚ, a ≤ l.foldl max a := by
  induction l with
  | nil => intro a; exact le_refl a
  | cons v l ih =>
    intro a
    exact le_trans (le_max_left a v) (ih (max a v))

theorem foldl_max_ge_mem (l : List ℚ) : ∀ (a x : ℚ), x ∈ l → x ≤ l.foldl max a := by
  induction l with
  | nil => intro a x hx; exact absurd hx (List.not_mem_nil x)
  | cons v l ih =>
    intro a x hx
    rcases List.mem_cons.mp hx with rfl | hx
    · exact le_trans (le_max_right a x) (foldl_max_ge_init l (max a x))
    · exact ih (max a v) x hx

theorem foldl_max_mem_or (l : List ℚ) : ∀ a : ℚ, l.foldl max a = a ∨ l.foldl max a ∈ l := by
  induction l with
  | nil => intro a; exact Or.inl rfl
  | cons v l ih =>
    intro a
    rcases ih (max a v) with h | h
    · rw [List.foldl_cons, h]
      rcases max_choice a v with h' | h'
      · exact Or.inl h'
      · exact Or.inr (by rw [h']; exact List.mem_cons_self v l)
    · exact Or.inr (List.mem_cons_of_mem v h)

theorem runAggFrom_reservoir_subset (sampleSize : ℕ) (js : ℕ → ℕ) (vs : List ℚ) :
    ∀ st x, x ∈ (runAggFrom sampleSize js st vs).reservoir →
      x ∈ st.reservoir ∨ x ∈ vs := by
  induction vs with
  | nil => intro st x hx; exact Or.inl hx
  | cons v vs ih =>
    intro st x hx
    rcases ih _ x hx with hx' | hx'
    · simp only [observe] at hx'
      split at hx'
      · rcases List.mem_append.mp hx' with h | h
        · exact Or.inl h
        · exact Or.inr (by simp at h; simp [h])
      · split at hx'
        · rcases List.mem_or_eq_of_mem_set hx' with h | h
          · exact Or.inl h
          · exact Or.inr (by simp [h])
        · exact Or.inl hx'
    · exact Or.inr (List.mem_cons_of_mem v hx')

theorem pick_div (l : List ℚ) (a b : ℕ) :
    pick l ((a : ℚ) / (b : ℚ)) = l.getD ((a * l.length) / b) 0 := by
  rw [pick]
  congr 1
  have h : (l.length : ℚ) * ((a : ℚ) / (b : ℚ))
      = ((a * l.length : ℕ) : ℚ) / ((b : ℕ) : ℚ) := by
    push_cast
    ring
  rw [h, Nat.floor_div_nat, Nat.floor_natCast]

theorem finalize_median (st : AggState) :
    (finalize st).median = (sortAsc st.reservoir).getD ((sortAsc st.reservoir).length / 2) 0 := by
  show pick (sortAsc st.reservoir) (1 / 2) = _
  have h := pick_div (sortAsc st.reservoir) 1 2
  norm_num at h
  simpa using h

theorem finalize_p25 (st : AggState) :
    (finalize st).percentile25
      = (sortAsc st.reservoir).getD ((sortAsc st.reservoir).length / 4) 0 := by
  show pick (sortAsc st.reservoir) (1 / 4) = _
  have h := pick_div (sortAsc st.reservoir) 1 4
  norm_num at h
  simpa using h

theorem finalize_p75 (st : AggState) :
    (finalize st).percentile75
      = (sortAsc st.reservoir).getD ((3 * (sortAsc st.reservoir).length) / 4) 0 := by
  show pick (sortAsc st.reservoir) (3 / 4) = _
  have h := pick_div (sortAsc st.reservoir) 3 4
  norm_num at h
  simpa using h

theorem finalize_p10 (st : AggState) :
    (finalize st).percentile10
      = (sortAsc st.reservoir).getD ((sortAsc st.reservoir).length / 10) 0 := by
  show pick (sortAsc st.reservoir) (1 / 10) = _
  have h := pick_div (sortAsc st.reservoir) 1 10
  norm_num at h
  simpa using h

theorem finalize_p90 (st : AggState) :
    (finalize st).percentile90
      = (sortAsc st.reservoir).getD ((9 * (sortAsc st.reservoir).length) / 10) 0 := by
  show pick (sortAsc st.reservoir) (9 / 10) = _
  have h := pick_div (sortAsc st.reservoir) 9 10
  norm_num at h
  simpa using h

theorem aggFinal_minV (sampleSize : ℕ) (js : ℕ → ℕ) (v : ℚ) (vs : List ℚ) :
    (aggFinal sampleSize js (v :: vs)).minV = some (vs.foldl min v) := by
  show (runAggFrom sampleSize js (observe sampleSize (js 0) initAgg v) vs).minV = _
  exact runAggFrom_minV sampleSize js vs _ v rfl

theorem aggFinal_maxV (sampleSize : ℕ) (js : ℕ → ℕ) (v : ℚ) (vs : List ℚ) :
    (aggFinal sampleSize js (v :: vs)).maxV = some (vs.foldl max v) := by
  show (runAggFrom sampleSize js (observe sampleSize (js 0) initAgg v) vs).maxV = _
  exact runAggFrom_maxV sampleSize js vs _ v rfl

theorem aggFinal_worst_facts (sampleSize : ℕ) (js : ℕ → ℕ) (v : ℚ) (vs : List ℚ) :
    (finalize (aggFinal sampleSize js (v :: vs))).worst ∈ v :: vs ∧
    ∀ x ∈ v :: vs, (finalize (aggFinal sampleSize js (v :: vs))).worst ≤ x := by
  have hw : (finalize (aggFinal sampleSize js (v :: vs))).worst = vs.foldl min v := by
    show (aggFinal sampleSize js (v :: vs)).minV.getD 0 = _
    rw [aggFinal_minV]
    rfl
  rw [hw]
  refine ⟨?_, ?_⟩
  · rcases foldl_min_mem_or vs v with h | h
    · rw [h]; exact List.mem_cons_self v vs
    · exact List.mem_cons_of_mem v h
  · intro x hx
    rcases List.mem_cons.mp hx with rfl | hx
    · exact foldl_min_le_init vs x
    · exact foldl_min_le_mem vs v x hx

theorem aggFinal_best_facts (sampleSize : ℕ) (js : ℕ → ℕ) (v : ℚ) (vs : List ℚ) :
    (finalize (aggFinal sampleSize js (v :: vs))).best ∈ v :: vs ∧
    ∀ x ∈ v :: vs, x ≤ (finalize (aggFinal sampleSize js (v :: vs))).best := by
  have hb : (finalize (aggFinal sampleSize js (v :: vs))).best = vs.foldl max v := by
    show (aggFinal sampleSize js (v :: vs)).maxV.getD 0 = _
    rw [aggFinal_maxV]
    rfl
  rw [hb]
  refine ⟨?_, ?_⟩
  · rcases foldl_max_mem_or vs v with h | h
    · rw [h]; exact List.mem_cons_self v vs
    · exact List.mem_cons_of_mem v h
  · intro x hx
    rcases List.mem_cons.mp hx with rfl | hx
    · exact foldl_max_ge_init vs x
    · exact foldl_max_ge_mem vs v x hx

/-- C5: at finalization, the mean is `sum/count` (`0` when `count = 0`, with
`sum` and `count` exactly the sum and length of the observed values), the
reservoir is sorted ascending, each reported percentile is
`sorted[floor(length * p)]` for p ∈ {0.10, 0.25, 0.50, 0.75, 0.90}
(the floors computed as the natural-number divisions shown), and worst/best
are the exact minimum/maximum of all observed values, tracked by the running
min/max rather than read from the reservoir. -/

theorem finalize_stats (sampleSize : ℕ) (js : ℕ → ℕ) (vs : List ℚ) :
    (aggFinal sampleSize js vs).seen = vs.length ∧
    (aggFinal sampleSize js vs).sum = vs.sum ∧
    (vs = [] → (finalize (aggFinal sampleSize js vs)).mean = 0) ∧
    (vs ≠ [] →
      (finalize (aggFinal sampleSize js vs)).mean = vs.sum / vs.length) ∧
    List.Sorted (· ≤ ·) (sortAsc (aggFinal sampleSize js vs).reservoir) ∧
    (sortAsc (aggFinal sampleSize js vs).reservoir).Perm
      (aggFinal sampleSize js vs).reservoir ∧
    (finalize (aggFinal sampleSize js vs)).median
      = (sortAsc (aggFinal sampleSize js vs).reservoir).getD
          ((sortAsc (aggFinal sampleSize js vs).reservoir).length / 2) 0 ∧
    (finalize (aggFinal sampleSize js vs)).percentile25
      = (sortAsc (aggFinal sampleSize js vs).reservoir).getD
          ((sortAsc (aggFinal sampleSize js vs).reservoir).length / 4) 0 ∧
    (finalize (aggFinal sampleSize js vs)).percentile75
      = (sortAsc (aggFinal sampleSize js vs).reservoir).getD
          ((3 * (sortAsc (aggFinal sampleSize js vs).reservoir).length) / 4) 0 ∧
    (finalize (aggFinal sampleSize js vs)).percentile10
      = (sortAsc (aggFinal sampleSize js vs).reservoir).getD
          ((sortAsc (aggFinal sampleSize js vs).reservoir).length / 10) 0 ∧
    (finalize (aggFinal sampleSize js vs)).percentile90
      = (sortAsc (aggFinal sampleSize js vs).reservoir).getD
          ((9 * (sortAsc (aggFinal sampleSize js vs).reservoir).length) / 10) 0 ∧
    (vs ≠ [] →
      (finalize (aggFinal sampleSize js vs)).worst ∈ vs ∧
      (∀ x ∈ vs, (finalize (aggFinal sampleSize js vs)).worst ≤ x) ∧
      (finalize (aggFinal sampleSize js vs)).best ∈ vs ∧
      (∀ x ∈ vs, x ≤ (finalize (aggFinal sampleSize js vs)).best)) := by
  have hseen : (aggFinal sampleSize js vs).seen = vs.length := by
    rw [aggFinal, runAggFrom_seen]
    show 0 + vs.length = vs.length
    omega
  have hsum : (aggFinal sampleSize js vs).sum = vs.sum := by
    rw [aggFinal, runAggFrom_sum]
    show (0 : ℚ) + vs.sum = vs.sum
    ring
  refine ⟨hseen, hsum, ?_, ?_, sortAsc_sorted _, sortAsc_perm _,
    finalize_median _, finalize_p25 _, finalize_p75 _, finalize_p10 _, finalize_p90 _, ?_⟩
  · intro hnil
    show (if 0 < (aggFinal sampleSize js vs).seen then _ else (0:ℚ)) = 0
    rw [if_neg]
    rw [hseen, hnil]
    simp
  · intro hne
    show (if 0 < (aggFinal sampleSize js vs).seen
        then (aggFinal sampleSize js vs).sum / (aggFinal sampleSize js vs).seen
        else (0:ℚ)) = vs.sum / vs.length
    rw [if_pos (by rw [hseen]; exact List.length_pos.mpr hne), hseen, hsum]
  · intro hne
    obtain ⟨v, vs', rfl⟩ := List.exists_cons_of_ne_nil hne
    obtain ⟨hw1, hw2⟩ := aggFinal_worst_facts sampleSize js v vs'
    obtain ⟨hb1, hb2⟩ := aggFinal_best_facts sampleSize js v vs'
    exact ⟨hw1, hw2, hb1, hb2⟩

/-- Witness for C5 at a concrete observed list and replacement oracle. -/

theorem finalize_stats_witness :
    (aggFinal 20000 (fun _ => 0) [3, 1, 2]).seen = 3 ∧
    (finalize (aggFinal 20000 (fun _ => 0) [3, 1, 2])).mean = 2 ∧
    (finalize (aggFinal 20000 (fun _ => 0) [3, 1, 2])).worst = 1 ∧
    (finalize (aggFinal 20000 (fun _ => 0) [3, 1, 2])).best = 3 := by
  have h := finalize_stats 20000 (fun _ => 0) [3, 1, 2]
  obtain ⟨hseen, hsum, -, hmean, -, -, -, -, -, -, -, hmm⟩ := h
  obtain ⟨hw1, hw2, hb1, hb2⟩ := hmm (by simp)
  refine ⟨by rw [hseen]; rfl, ?_, ?_, ?_⟩
  · rw [hmean (by simp)]
    norm_num
  · have h1 : (1 : ℚ) ≤ (finalize (aggFinal 20000 (fun _ => 0) [3, 1, 2])).worst := by
      simp only [List.mem_cons, List.not_mem_nil, or_false] at hw1
      rcases hw1 with h | h | h <;> rw [h] <;> norm_num
    have h2 := hw2 1 (by simp)
    linarith
  · have h1 : (finalize (aggFinal 20000 (fun _ => 0) [3, 1, 2])).best ≤ 3 := by
      simp only [List.mem_cons, List.not_mem_nil, or_false] at hb1
      rcases hb1 with h | h | h <;> rw [h] <;> norm_num
    have h2 := hb2 3 (by simp)
    linarith

theorem getD_sorted_mono {l : List ℚ} (hs : List.Sorted (· ≤ ·) l) {i j : ℕ}
    (hij : i ≤ j) (hj : j < l.length) : l.getD i 0 ≤ l.getD j 0 := by
  have hi : i < l.length := lt_of_le_of_lt hij hj
  rw [List.getD_eq_getElem l 0 hi, List.getD_eq_getElem l 0 hj]
  have h := List.Sorted.rel_get_of_le hs
    (a := ⟨i, hi⟩) (b := ⟨j, hj⟩) (Fin.mk_le_mk.mpr hij)
  simpa using h

theorem aggFinal_reservoir_mem (sampleSize : ℕ) (js : ℕ → ℕ) (vs : List ℚ)
    (x : ℚ) (hx : x ∈ (aggFinal sampleSize js vs).reservoir) : x ∈ vs := by
  rcases runAggFrom_reservoir_subset sampleSize js vs initAgg x hx with h | h
  · exact absurd h (List.not_mem_nil x)
  · exact h

/-- C6: for any run whose reservoir is non-empty at finalization, the
reported summary satisfies
worst ≤ p10 ≤ p25 ≤ median ≤ p75 ≤ p90 ≤ best, where worst/best are the
exact running min/max over all observed values and the percentiles are read
from the sorted reservoir. -/

theorem summary_ordering (sampleSize : ℕ) (js : ℕ → ℕ) (vs : List ℚ)
    (hne : (aggFinal sampleSize js vs).reservoir ≠ []) :
    (finalize (aggFinal sampleSize js vs)).worst
        ≤ (finalize (aggFinal sampleSize js vs)).percentile10 ∧
    (finalize (aggFinal sampleSize js vs)).percentile10
        ≤ (finalize (aggFinal sampleSize js vs)).percentile25 ∧
    (finalize (aggFinal sampleSize js vs)).percentile25
        ≤ (finalize (aggFinal sampleSize js vs)).median ∧
    (finalize (aggFinal sampleSize js vs)).median
        ≤ (finalize (aggFinal sampleSize js vs)).percentile75 ∧
    (finalize (aggFinal sampleSize js vs)).percentile75
        ≤ (finalize (aggFinal sampleSize js vs)).percentile90 ∧
    (finalize (aggFinal sampleSize js vs)).percentile90
        ≤ (finalize (aggFinal sampleSize js vs)).best := by
  have hperm := sortAsc_perm (aggFinal sampleSize js vs).reservoir
  have hsort := sortAsc_sorted (aggFinal sampleSize js vs).reservoir
  set sorted := sortAsc (aggFinal sampleSize js vs).reservoir with hsorted
  set n := sorted.length with hndef
  have hn : 0 < n := by
    rw [hndef, hperm.length_eq]
    exact List.length_pos.mpr hne
  have h90 : (9 * n) / 10 < n := by omega
  have h10_25 : n / 10 ≤ n / 4 := by omega
  have h25_50 : n / 4 ≤ n / 2 := by omega
  have h50_75 : n / 2 ≤ (3 * n) / 4 := by omega
  have h75_90 : (3 * n) / 4 ≤ (9 * n) / 10 := by omega
  have h25n : n / 4 < n := by omega
  have h50n : n / 2 < n := by omega
  have h75n : (3 * n) / 4 < n := by omega
  have h10n : n / 10 < n := by omega
  have hvs : vs ≠ [] := by
    intro hnil
    apply hne
    rw [hnil]
    rfl
  obtain ⟨v, vs', rfl⟩ := List.exists_cons_of_ne_nil hvs
  obtain ⟨-, hw2⟩ := aggFinal_worst_facts sampleSize js v vs'
  obtain ⟨-, hb2⟩ := aggFinal_best_facts sampleSize js v vs'
  have hmem : ∀ i, i < n → sorted.getD i 0 ∈ v :: vs' := by
    intro i hi
    rw [List.getD_eq_getElem sorted 0 hi]
    exact aggFinal_reservoir_mem sampleSize js _ _
      (hperm.mem_iff.mp (List.getElem_mem hi))
  rw [finalize_median, finalize_p25, finalize_p75, finalize_p10, finalize_p90,
    ← hsorted, ← hndef]
  refine ⟨hw2 _ (hmem _ h10n), getD_sorted_mono hsort h10_25 h25n,
    getD_sorted_mono hsort h25_50 h50n, getD_sorted_mono hsort h50_75 h75n,
    getD_sorted_mono hsort h75_90 h90, hb2 _ (hmem _ h90)⟩

/-- Witness for C6 at a concrete run with a non-empty reservoir. -/

theorem summary_ordering_witness :
    (aggFinal 20000 (fun _ => 0) [5, 4]).reservoir ≠ [] ∧
    ((finalize (aggFinal 20000 (fun _ => 0) [5, 4])).worst
        ≤ (finalize (aggFinal 20000 (fun _ => 0) [5, 4])).percentile10 ∧
     (finalize (aggFinal 20000 (fun _ => 0) [5, 4])).percentile10
        ≤ (finalize (aggFinal 20000 (fun _ => 0) [5, 4])).percentile25 ∧
     (finalize (aggFinal 20000 (fun _ => 0) [5, 4])).percentile25
        ≤ (finalize (aggFinal 20000 (fun _ => 0) [5, 4])).median ∧
     (finalize (aggFinal 20000 (fun _ => 0) [5, 4])).median
        ≤ (finalize (aggFinal 20000 (fun _ => 0) [5, 4])).percentile75 ∧
     (finalize (aggFinal 20000 (fun _ => 0) [5, 4])).percentile75
        ≤ (finalize (aggFinal 20000 (fun _ => 0) [5, 4])).percentile90 ∧
     (finalize (aggFinal 20000 (fun _ => 0) [5, 4])).percentile90
        ≤ (finalize (aggFinal 20000 (fun _ => 0) [5, 4])).best) :=
  ⟨by simp [aggFinal, runAggFrom, observe, initAgg],
   summary_ordering 20000 (fun _ => 0) [5, 4]
     (by simp [aggFinal, runAggFrom, observe, initAgg])⟩

theorem claimsFrom_zero_take {total bs cur : ℕ} (h : nextBatchTake total bs cur = 0) :
    ∀ fuel, claimsFrom total bs fuel cur = [] := by
  intro fuel
  cases fuel with
  | zero => rfl
  | succ fuel => simp [claimsFrom, h]

theorem foldl_claimStep {W : Type} (total bs : ℕ) :
    ∀ (callers : List W) (cur : ℕ) (acc : List (ℕ × ℕ)),
      (callers.foldl (claimStep total bs) (cur, acc)).2
        = acc ++ claimsFrom total bs callers.length cur := by
  intro callers
  induction callers with
  | nil => intro cur acc; simp [claimsFrom]
  | cons w ws ih =>
    intro cur acc
    show (ws.foldl (claimStep total bs) (claimStep total bs (cur, acc) w)).2 = _
    by_cases h : nextBatchTake total bs cur = 0
    · have hstep : claimStep total bs (cur, acc) w = (cur, acc) := by
        rw [claimStep]
        simp [h]
      rw [hstep, ih cur acc, claimsFrom_zero_take h, claimsFrom_zero_take h]
    · have hstep : claimStep total bs (cur, acc) w
          = (cur + nextBatchTake total bs cur,
             acc ++ [(cur, nextBatchTake total bs cur)]) := by
        rw [claimStep]
        simp [h]
      rw [hstep, ih]
      rw [List.length_cons, claimsFrom]
      simp only [if_neg h, List.append_assoc, List.singleton_append]

theorem claimsFrom_flatten (total bs : ℕ) (hbs : 0 < bs) :
    ∀ (fuel cur : ℕ), total ≤ cur + fuel * bs →
      ((claimsFrom total bs fuel cur).map (fun r => List.range' r.1 r.2)).flatten
        = List.range' cur (total - cur) := by
  intro fuel
  induction fuel with
  | zero =>
    intro cur h
    simp only [Nat.zero_mul, Nat.add_zero] at h
    rw [claimsFrom]
    have : total - cur = 0 := by omega
    rw [this]
    rfl
  | succ fuel ih =>
    intro cur h
    by_cases hcur : cur < total
    · have htk : nextBatchTake total bs cur = min bs (total - cur) := by
        rw [nextBatchTake, if_pos hcur]
      have htk0 : nextBatchTake total bs cur ≠ 0 := by
        rw [htk]
        have h1 : 0 < total - cur := by omega
        omega
      rw [claimsFrom]
      simp only [if_neg htk0, List.map_cons, List.flatten_cons]
      have hmul : (fuel + 1) * bs = fuel * bs + bs := by ring
      rw [hmul] at h
      have hcases : nextBatchTake total bs cur = bs
          ∨ nextBatchTake total bs cur = total - cur := by
        rw [htk]
        rcases Nat.le_total bs (total - cur) with h' | h'
        · exact Or.inl (min_eq_left h')
        · exact Or.inr (min_eq_right h')
      have hle : nextBatchTake total bs cur ≤ total - cur := by
        rw [htk]; exact min_le_right _ _
      have hrest : total ≤ (cur + nextBatchTake total bs cur) + fuel * bs := by
        rcases hcases with h' | h' <;> omega
      rw [ih _ hrest]
      have happ := List.range'_append cur (nextBatchTake total bs cur)
        (total - (cur + nextBatchTake total bs cur)) 1
      simp only [Nat.one_mul] at happ
      rw [happ]
      congr 1
      omega
    · have htk : nextBatchTake total bs cur = 0 := by
        rw [nextBatchTake, if_neg hcur]
      rw [claimsFrom]
      simp only [if_pos htk]
      have : total - cur = 0 := by omega
      rw [this]
      rfl

theorem claimsFrom_sizes (total bs : ℕ) :
    ∀ (fuel cur : ℕ) (r : ℕ × ℕ), r ∈ claimsFrom total bs fuel cur →
      0 < r.2 ∧ r.2 ≤ bs := by
  intro fuel
  induction fuel with
  | zero => intro cur r hr; exact absurd hr (List.not_mem_nil r)
  | succ fuel ih =>
    intro cur r hr
    rw [claimsFrom] at hr
    by_cases h : nextBatchTake total bs cur = 0
    · rw [if_pos h] at hr
      exact absurd hr (List.not_mem_nil r)
    · rw [if_neg h] at hr
      rcases List.mem_cons.mp hr with rfl | hr

      · refine ⟨Nat.pos_of_ne_zero h, ?_⟩
        show nextBatchTake total bs cur ≤ bs
        rw [nextBatchTake]
        split
        · exact min_le_left _ _
        · exact Nat.zero_le bs
      · exact ih _ r hr

theorem claimsFrom_start_le (total bs : ℕ) :
    ∀ (fuel cur : ℕ) (r : ℕ × ℕ), r ∈ claimsFrom total bs fuel cur → cur ≤ r.1 := by
  intro fuel
  induction fuel with
  | zero => intro cur r hr; exact absurd hr (List.not_mem_nil r)
  | succ fuel ih =>
    intro cur r hr
    rw [claimsFrom] at hr
    by_cases h : nextBatchTake total bs cur = 0
    · rw [if_pos h] at hr
      exact absurd hr (List.not_mem_nil r)
    · rw [if_neg h] at hr
      rcases List.mem_cons.mp hr with rfl | hr
      · exact le_refl _
      · exact le_trans (Nat.le_add_right cur _) (ih _ r hr)

theorem claimsFrom_pairwise (total bs : ℕ) :
    ∀ (fuel cur : ℕ),
      (claimsFrom total bs fuel cur).Pairwise (fun a b => a.1 + a.2 ≤ b.1) := by
  intro fuel
  induction fuel with
  | zero => intro cur; exact List.Pairwise.nil
  | succ fuel ih =>
    intro cur
    rw [claimsFrom]
    by_cases h : nextBatchTake total bs cur = 0
    · rw [if_pos h]; exact List.Pairwise.nil
    · rw [if_neg h]
      refine List.Pairwise.cons ?_ (ih _)
      intro r hr
      exact claimsFrom_start_le total bs fuel _ r hr

/-- C4: with batchSize = 20000, the pool size is
`min(clamp(hw,1,8), ceil(total/20000))`, and — for any interleaving of
`getNextBatch` callers long enough to exhaust the cursor — the claimed
ranges depend only on the number of calls, are each non-empty of size at
most 20000, are ordered and pairwise disjoint, and their concatenation is
exactly the interval [0, total): every index is claimed exactly once. -/

theorem batch_partition (hw total : ℕ) {W : Type} (callers : List W)
    (hcall : totalBatchesOf total 20000 ≤ callers.length) :
    poolSizeOf hw total 20000
        = min (min (max 1 hw) 8) ((total + 20000 - 1) / 20000) ∧
    (claimRun total 20000 callers).2 = claimsFrom total 20000 callers.length 0 ∧
    ((claimRun total 20000 callers).2.map
        (fun r => List.range' r.1 r.2)).flatten = List.range' 0 total ∧
    (∀ r ∈ (claimRun total 20000 callers).2, 0 < r.2 ∧ r.2 ≤ 20000) ∧
    (claimRun total 20000 callers).2.Pairwise (fun a b => a.1 + a.2 ≤ b.1) := by
  have hrun : (claimRun total 20000 callers).2
      = claimsFrom total 20000 callers.length 0 := by
    rw [claimRun, foldl_claimStep]
    rfl
  have hfuel : total ≤ 0 + callers.length * 20000 := by
    rw [totalBatchesOf] at hcall
    omega
  refine ⟨rfl, hrun, ?_, ?_, ?_⟩
  · rw [hrun, claimsFrom_flatten total 20000 (by norm_num) callers.length 0 hfuel]
    norm_num
  · intro r hr
    rw [hrun] at hr
    exact claimsFrom_sizes total 20000 callers.length 0 r hr
  · rw [hrun]
    exact claimsFrom_pairwise total 20000 callers.length 0

/-- Witness for C4 at a concrete total, hardware concurrency and caller
interleaving. -/

theorem batch_partition_witness :
    totalBatchesOf 45 20000 ≤ ([0, 1, 0] : List ℕ).length ∧
    (poolSizeOf 4 45 20000 = min (min (max 1 4) 8) ((45 + 20000 - 1) / 20000) ∧
     (claimRun 45 20000 [0, 1, 0]).2 = claimsFrom 45 20000 ([0, 1, 0] : List ℕ).length 0 ∧
     ((claimRun 45 20000 [0, 1, 0]).2.map
        (fun r => List.range' r.1 r.2)).flatten = List.range' 0 45 ∧
     (∀ r ∈ (claimRun 45 20000 [0, 1, 0]).2, 0 < r.2 ∧ r.2 ≤ 20000) ∧
     (claimRun 45 20000 [0, 1, 0]).2.Pairwise (fun a b => a.1 + a.2 ≤ b.1)) :=
  ⟨by decide, batch_partition 4 45 [0, 1, 0] (by decide)⟩

/-- Counterexample to C3: in a two-batch run (totalSimulations 40000,
batchSize 20000, pool of 2) where worker 0 delivers a malformed batch, the
sibling worker is never terminated by an abort (it retires normally after
completing its own batch), and the run still completes with non-null summary
statistics — the error message is set, but the run is not aborted, results
are not left null, and statistics are returned. -/

theorem malformed_does_not_abort :
    (runPool 40000 20000 20000 4 respCE (fun _ => 0) [0, 1]).errorSet = true ∧
    (runPool 40000 20000 20000 4 respCE (fun _ => 0) [0, 1]).workers.get? 1
      = some WStatus.doneNormal ∧
    allResolved (runPool 40000 20000 20000 4 respCE (fun _ => 0) [0, 1]) = true ∧
    (poolOutcome (runPool 40000 20000 20000 4 respCE (fun _ => 0) [0, 1])
        (Except.ok ([] : List (ℕ × List ℚ)))).1 ≠ none := by
  refine ⟨?_, ?_, ?_, ?_⟩ <;> decide

/-- C3 amended: a malformed batch response terminates only the offending
worker — it is marked failed, one error message is recorded, and the cursor,
aggregation state, progress counter and every other worker are untouched —
and whenever all workers have resolved and the chart job succeeds, the
coordinator still computes and returns the summary statistics (results
non-null), error message or not. -/

theorem malformed_terminates_only_offender (total bs sampleSize : ℕ)
    (resp : ℕ → ℕ → WResp) (js : ℕ → ℕ) (st : PoolState) (i k : ℕ)
    (hbusy : st.workers.get? i = some (WStatus.busy k))
    (hmal : resp i k = WResp.malformed) :
    (deliver total bs sampleSize resp js st i).workers
        = st.workers.set i WStatus.doneError ∧
    (deliver total bs sampleSize resp js st i).errorSet = true ∧
    (deliver total bs sampleSize resp js st i).errMsgCount = st.errMsgCount + 1 ∧
    (deliver total bs sampleSize resp js st i).cursor = st.cursor ∧
    (deliver total bs sampleSize resp js st i).agg = st.agg ∧
    (deliver total bs sampleSize resp js st i).completedBatches
        = st.completedBatches ∧
    (∀ j, j ≠ i → (deliver total bs sampleSize resp js st i).workers.get? j
        = st.workers.get? j) ∧
    (∀ (s2 : PoolState) (cd : List (ℕ × List ℚ)), allResolved s2 = true →
      (poolOutcome s2 (Except.ok cd)).1 = some (finalize s2.agg)) := by
  have hd : deliver total bs sampleSize resp js st i
      = { st with
          workers := st.workers.set i WStatus.doneError
          errMsgCount := st.errMsgCount + 1
          errorSet := true } := by
    simp only [deliver, hbusy, hmal]
  rw [hd]
  refine ⟨rfl, rfl, rfl, rfl, rfl, rfl, ?_, ?_⟩
  · intro j hj
    show (st.workers.set i WStatus.doneError).get? j = st.workers.get? j
    rw [List.get?_eq_getElem?, List.get?_eq_getElem?, List.getElem?_set,
      if_neg (fun h => hj h.symm)]
  · intro s2 cd hres
    rw [poolOutcome, if_pos hres]

/-- Witness for the amended C3 at a concrete coordinator state. -/

theorem malformed_terminates_only_offender_witness :
    (⟨0, initAgg, 0, false, 0, [WStatus.busy 0, WStatus.busy 0]⟩ :
        PoolState).workers.get? 0 = some (WStatus.busy 0) ∧
    (fun _ _ => WResp.malformed : ℕ → ℕ → WResp) 0 0 = WResp.malformed ∧
    (deliver 40000 20000 20000 (fun _ _ => WResp.malformed) (fun _ => 0)
        ⟨0, initAgg, 0, false, 0, [WStatus.busy 0, WStatus.busy 0]⟩ 0).errorSet
      = true :=
  ⟨rfl, rfl,
    (malformed_terminates_only_offender 40000 20000 20000
      (fun _ _ => WResp.malformed) (fun _ => 0)
      ⟨0, initAgg, 0, false, 0, [WStatus.busy 0, WStatus.busy 0]⟩ 0 0
      rfl rfl).2.1⟩

theorem floor_mul_nat_div (n a b : ℕ) :
    ⌊(n : ℚ) * ((a : ℚ) / (b : ℚ))⌋₊ = (a * n) / b := by
  have h : (n : ℚ) * ((a : ℚ) / (b : ℚ)) = ((a * n : ℕ) : ℚ) / ((b : ℕ) : ℚ) := by
    push_cast
    ring
  rw [h, Nat.floor_div_nat, Nat.floor_natCast]

theorem floor_mul_quarter (n : ℕ) : ⌊(n : ℚ) * (1 / 4)⌋₊ = n / 4 := by
  have h := floor_mul_nat_div n 1 4
  norm_num at h
  exact h

theorem floor_mul_half (n : ℕ) : ⌊(n : ℚ) * (1 / 2)⌋₊ = n / 2 := by
  have h := floor_mul_nat_div n 1 2
  norm_num at h
  exact h

theorem floor_mul_threequarter (n : ℕ) : ⌊(n : ℚ) * (3 / 4)⌋₊ = 3 * n / 4 := by
  have h := floor_mul_nat_div n 3 4
  norm_num at h
  exact h

theorem mapM_ok {α β : Type} (f : α → Except Unit β) (g : α → β) :
    ∀ l : List α, (∀ a ∈ l, f a = Except.ok (g a)) →
      l.mapM f = Except.ok (l.map g) := by
  intro l
  induction l with
  | nil => intro _; rfl
  | cons a l ih =>
    intro h
    rw [List.mapM_cons, h a (List.mem_cons_self a l),
      ih (fun x hx => h x (List.mem_cons_of_mem a hx))]
    rfl

theorem get?_eq_some_getD {α : Type} (l : List α) (d : α) {i : ℕ}
    (h : i < l.length) : l.get? i = some (l.getD i d) := by
  rw [List.getD_eq_getElem l d h, List.get?_eq_getElem?, List.getElem?_eq_getElem h]

theorem getD_mem {α : Type} (l : List α) (d : α) {i : ℕ} (h : i < l.length) :
    l.getD i d ∈ l := by
  rw [List.getD_eq_getElem l d h]
  exact List.getElem_mem h

theorem sortedPaths_length (p : Params) (o : ℕ → ℕ → ℕ → Bool) (sims : ℕ) :
    (sortedPaths p o sims).length = sims := by
  rw [sortedPaths, (List.mergeSort_perm _ _).length_eq, List.length_map,
    List.length_range]

theorem sortedPaths_perm (p : Params) (o : ℕ → ℕ → ℕ → Bool) (sims : ℕ) :
    (sortedPaths p o sims).Perm ((List.range sims).map (fun s => runSim p (o s))) :=
  List.mergeSort_perm _ _

theorem sortedPaths_pairwise (p : Params) (o : ℕ → ℕ → ℕ → Bool) (sims : ℕ) :
    (sortedPaths p o sims).Pairwise (fun a b => a.finalCapital ≤ b.finalCapital) := by
  have h := @List.sorted_mergeSort SimulationResult pathLe
    (fun a b c hab hbc => by
      simp only [pathLe, decide_eq_true_iff] at *
      exact le_trans hab hbc)
    (fun a b => by simpa [pathLe] using le_total a.finalCapital b.finalCapital)
    ((List.range sims).map (fun s => runSim p (o s)))
  exact h.imp (fun hab => of_decide_eq_true hab)

theorem sortedPaths_mem (p : Params) (o : ℕ → ℕ → ℕ → Bool) (sims : ℕ)
    (r : SimulationResult) (hr : r ∈ sortedPaths p o sims) :
    ∃ s, r = runSim p (o s) := by
  have h := (sortedPaths_perm p o sims).mem_iff.mp hr
  simp only [List.mem_map, List.mem_range] at h
  obtain ⟨s, _, rfl⟩ := h
  exact ⟨s, rfl⟩

theorem runSim_monthlyData_get? (p : Params) (o : ℕ → ℕ → Bool) (m : ℕ)
    (hm : m ≤ p.timeMonths) :
    (runSim p o).monthlyData.get? m = some ⟨m, (stateAt p o m).capital⟩ := by
  show ((List.range (p.timeMonths + 1)).map
      (fun m => (⟨m, (stateAt p o m).capital⟩ : MonthlyPoint))).get? m = _
  rw [List.get?_map, List.get?_range (by omega)]
  rfl

theorem runSim_monthlyData_length (p : Params) (o : ℕ → ℕ → Bool) :
    (runSim p o).monthlyData.length = p.timeMonths + 1 := by
  show ((List.range (p.timeMonths + 1)).map _).length = _
  rw [List.length_map, List.length_range]

theorem pathValueAt_runSim (p : Params) (o : ℕ → ℕ → Bool) (m : ℕ)
    (hm : m ≤ p.timeMonths) :
    pathValueAt (some (runSim p o)) m
      = Except.ok (((runSim p o).monthlyData.getD m ⟨0, 0⟩).capital) := by
  have hlen : m < (runSim p o).monthlyData.length := by
    rw [runSim_monthlyData_length]
    omega
  have h1 := runSim_monthlyData_get? p o m hm
  have h2 := get?_eq_some_getD (runSim p o).monthlyData ⟨0, 0⟩ hlen
  have h3 : (runSim p o).monthlyData.getD m ⟨0, 0⟩
      = ⟨m, (stateAt p o m).capital⟩ := by
    rw [h1] at h2
    exact (Option.some.inj h2).symm
  simp only [pathValueAt, h1, h3]
  rfl

/-- C9: for totalSimulations ≥ 1, the Path Sampler runs one pass of
`sims = min(1000, totalSimulations)` simulations; the sorted list is an
ascending-by-finalCapital permutation of the generated results; the worker
returns exactly the paths at ranks 0, ⌊n/4⌋, ⌊n/2⌋, ⌊3n/4⌋ and n−1 (all
defined, none `undefined`); and the chart resolves with one row per month
0..timeMonths carrying those five paths' recorded capitals at that month,
in the order Worst Sim, 25th %ile, Median, 75th %ile, Best Sim. -/

theorem path_sampler (p : Params) (o : ℕ → ℕ → ℕ → Bool) (totalSims : ℕ)
    (h1 : 1 ≤ totalSims) :
    (sortedPaths p o (min 1000 totalSims)).Perm
        ((List.range (min 1000 totalSims)).map (fun s => runSim p (o s))) ∧
    (sortedPaths p o (min 1000 totalSims)).Pairwise
        (fun a b => a.finalCapital ≤ b.finalCapital) ∧
    runPathsJob p o (min 1000 totalSims)
      = [0, min 1000 totalSims / 4, min 1000 totalSims / 2,
         3 * min 1000 totalSims / 4, min 1000 totalSims - 1].map
          (fun i => some ((sortedPaths p o (min 1000 totalSims)).getD i ⟨0, []⟩)) ∧
    fetchChartPaths p totalSims o
      = Except.ok ((List.range (p.timeMonths + 1)).map (fun m =>
          (m, [0, min 1000 totalSims / 4, min 1000 totalSims / 2,
               3 * min 1000 totalSims / 4, min 1000 totalSims - 1].map
            (fun i => (((sortedPaths p o (min 1000 totalSims)).getD i
                ⟨0, []⟩).monthlyData.getD m ⟨0, 0⟩).capital)))) := by
  have hn1 : 1 ≤ min 1000 totalSims := le_min (by norm_num) h1
  have hlen := sortedPaths_length p o (min 1000 totalSims)
  have hbound : ∀ i ∈ [0, min 1000 totalSims / 4, min 1000 totalSims / 2,
      3 * min 1000 totalSims / 4, min 1000 totalSims - 1],
      i < (sortedPaths p o (min 1000 totalSims)).length := by
    intro i hi
    rw [hlen]
    simp only [List.mem_cons, List.not_mem_nil, or_false] at hi
    rcases hi with rfl | rfl | rfl | rfl | rfl <;> omega
  have hjob : runPathsJob p o (min 1000 totalSims)
      = [0, min 1000 totalSims / 4, min 1000 totalSims / 2,
         3 * min 1000 totalSims / 4, min 1000 totalSims - 1].map
          (fun i => some ((sortedPaths p o (min 1000 totalSims)).getD i ⟨0, []⟩)) := by
    rw [runPathsJob]
    have hpicks : [0, ⌊((sortedPaths p o (min 1000 totalSims)).length : ℚ) * (1/4)⌋₊,
        ⌊((sortedPaths p o (min 1000 totalSims)).length : ℚ) * (1/2)⌋₊,
        ⌊((sortedPaths p o (min 1000 totalSims)).length : ℚ) * (3/4)⌋₊,
        (sortedPaths p o (min 1000 totalSims)).length - 1]
        = [0, min 1000 totalSims / 4, min 1000 totalSims / 2,
           3 * min 1000 totalSims / 4, min 1000 totalSims - 1] := by
      rw [hlen, floor_mul_quarter, floor_mul_half, floor_mul_threequarter]
    rw [hpicks]
    exact List.map_congr_left
      (fun i hi => get?_eq_some_getD _ _ (hbound i hi))
  refine ⟨sortedPaths_perm p o _, sortedPaths_pairwise p o _, hjob, ?_⟩
  rw [fetchChartPaths]
  apply mapM_ok
  intro m hm
  have hmle : m ≤ p.timeMonths := by
    simp only [List.mem_range] at hm
    omega
  rw [hjob]
  have hinner :
      ([0, min 1000 totalSims / 4, min 1000 totalSims / 2,
        3 * min 1000 totalSims / 4, min 1000 totalSims - 1].map
          (fun i => some ((sortedPaths p o (min 1000 totalSims)).getD i ⟨0, []⟩))).mapM
        (fun q => pathValueAt q m)
      = Except.ok
          ([0, min 1000 totalSims / 4, min 1000 totalSims / 2,
            3 * min 1000 totalSims / 4, min 1000 totalSims - 1].map
            (fun i => (((sortedPaths p o (min 1000 totalSims)).getD i
                ⟨0, []⟩).monthlyData.getD m ⟨0, 0⟩).capital)) := by
    have hok := mapM_ok (fun q => pathValueAt q m)
      (fun q => (((q.getD ⟨0, []⟩).monthlyData.getD m ⟨0, 0⟩)).capital)
      ([0, min 1000 totalSims / 4, min 1000 totalSims / 2,
        3 * min 1000 totalSims / 4, min 1000 totalSims - 1].map
          (fun i => some ((sortedPaths p o (min 1000 totalSims)).getD i ⟨0, []⟩)))
      (by
        intro q hq
        simp only [List.mem_map] at hq
        obtain ⟨i, hi, rfl⟩ := hq
        obtain ⟨s, hs⟩ := sortedPaths_mem p o (min 1000 totalSims) _
          (getD_mem _ _ (hbound i hi))
        dsimp only
        rw [hs, pathValueAt_runSim p (o s) m hmle]
        rfl)
    rw [hok, List.map_map]
    rfl
  rw [hinner]
  rfl

/-- Witness for C9 at concrete params, outcome oracle and simulation count. -/

theorem path_sampler_witness :
    1 ≤ 1 ∧
    fetchChartPaths ⟨100, 10, 1, 100, 1, 1, 1000, none⟩ 1 (fun _ _ _ => true)
      = Except.ok ((List.range (1 + 1)).map (fun m =>
          (m, [0, min 1000 1 / 4, min 1000 1 / 2, 3 * min 1000 1 / 4,
               min 1000 1 - 1].map
            (fun i => (((sortedPaths ⟨100, 10, 1, 100, 1, 1, 1000, none⟩
                (fun _ _ _ => true) (min 1000 1)).getD i
                ⟨0, []⟩).monthlyData.getD m ⟨0, 0⟩).capital)))) :=
  ⟨le_refl 1,
    (path_sampler ⟨100, 10, 1, 100, 1, 1, 1000, none⟩ (fun _ _ _ => true) 1
      (le_refl 1)).2.2.2⟩

/-- C10 evidence at the failing input totalSimulations = 0: the pool is
empty and immediately resolved, the finalized summary is all zeros (mean
guard, empty-reservoir percentile guards, and the ±Infinity sentinels
coerced to 0) — but the chart job faults: with `sims = min(1000, 0) = 0`
the paths worker returns five `undefined` picks from the empty sorted
array, `fetchChartPaths` dereferences them, and the overall run outcome
keeps `results = none` instead of completing with the zeroed summary. -/

theorem zero_sims_summary_zero_chart_faults :
    poolSizeOf 4 0 20000 = 0 ∧
    (initPool 0 20000 4).workers = [] ∧
    allResolved (initPool 0 20000 4) = true ∧
    finalize (initPool 0 20000 4).agg = ⟨0, 0, 0, 0, 0, 0, 0, 0⟩ ∧
    fetchChartPaths ⟨50000, 1, 3, 30, 7, 36, 3000, none⟩ 0 (fun _ _ _ => true)
      = Except.error () ∧
    (poolOutcome (initPool 0 20000 4)
        (fetchChartPaths ⟨50000, 1, 3, 30, 7, 36, 3000, none⟩ 0
          (fun _ _ _ => true))).1 = none := by
  have hchart : fetchChartPaths ⟨50000, 1, 3, 30, 7, 36, 3000, none⟩ 0
      (fun _ _ _ => true) = Except.error () := by
    have hpaths : runPathsJob ⟨50000, 1, 3, 30, 7, 36, 3000, none⟩
        (fun _ _ _ => true) (min 1000 0) = [none, none, none, none, none] := by
      rw [runPathsJob]
      have hs : sortedPaths ⟨50000, 1, 3, 30, 7, 36, 3000, none⟩
          (fun _ _ _ => true) (min 1000 0) = [] := by
        rw [sortedPaths]
        have h0 : List.range (min 1000 0) = [] := by norm_num
        rw [h0, List.map_nil, List.mergeSort_nil]
      rw [hs]
      norm_num
    rw [fetchChartPaths]
    have hrange : List.range (36 + 1) = 0 :: (List.range 36).map Nat.succ :=
      List.range_succ_eq_map 36
    show (List.range (36 + 1)).mapM _ = Except.error ()
    rw [hrange, List.mapM_cons, hpaths]
    rfl
  refine ⟨by decide, rfl, rfl, ?_, hchart, ?_⟩
  · show finalize initAgg = _
    simp only [finalize, initAgg, sortAsc, List.mergeSort_nil, pick]
    norm_num [List.getD_nil]
  · rw [hchart]
    rfl

/-- The spec's deterministic all-wins example: final capital 54500. -/

theorem spec_example_all_wins :
    (runSim ⟨50000, 1, 3, 100, 1, 3, 3000, none⟩ (fun _ _ => true)).finalCapital
      = 54500 := by
  norm_num [runSim, stateAt, monthStep, monthEnd, monthOuts, tradesFold, tradeStep,
    clampNeg, riskOf, initState, recalcMonths, List.range_succ]

/-- The spec's deterministic all-losses example: final capital 48500. -/

theorem spec_example_all_losses :
    (runSim ⟨50000, 1, 3, 0, 1, 3, 3000, none⟩ (fun _ _ => false)).finalCapital
      = 48500 := by
  norm_num [runSim, stateAt, monthStep, monthEnd, monthOuts, tradesFold, tradeStep,
    clampNeg, riskOf, initState, recalcMonths, List.range_succ]

/-- The spec's deterministic all-wins example, full monthly path. -/

theorem spec_example_all_wins_path :
    (runSim ⟨50000, 1, 3, 100, 1, 3, 3000, none⟩ (fun _ _ => true)).monthlyData
      = [⟨0, 50000⟩, ⟨1, 51500⟩, ⟨2, 53000⟩, ⟨3, 54500⟩] := by
  norm_num [runSim, stateAt, monthStep, monthEnd, monthOuts, tradesFold, tradeStep,
    clampNeg, riskOf, initState, recalcMonths, List.range_succ]

end MonteCarlo
